import Mathlib

/-!
# my-shell-prompt: a shallow embedding of `my-shell-prompt.c`

Bytes are natural numbers below 256. A `char*` is the function giving the byte
stored at each offset from the pointer (`Mem`). Values of type `size_t` are
natural numbers reduced modulo `SIZE_MOD = 2^64`; values of type `unsigned`
are reduced modulo `UINT_MOD = 2^32`. Loops whose trip count is not a plain
bounded counter take an explicit amount of fuel and return `none` when it is
used up.
-/

set_option autoImplicit false

namespace ShellPrompt

/-! ## Memory, sizes and string literals -/

/-- Memory seen through a `char*`: the byte stored at each offset. -/
abbrev Mem := Nat → Nat

/-- Macro `#define BUF_SIZE 4096`. -/
def BUF_SIZE : Nat := 4096

/-- Macro `#define MAX_LINE_SIZE 1024`. -/
def MAX_LINE_SIZE : Nat := 1024

/-- Macro `#define PATH_SEP '/'`. -/
def PATH_SEP : Nat := 47

/-- Number of values of `size_t` (64-bit): arithmetic on `size_t` is modulo this. -/
def SIZE_MOD : Nat := 18446744073709551616

/-- Number of values of `unsigned` (32-bit). -/
def UINT_MOD : Nat := 4294967296

/-- Addition of two `size_t` values. -/
def size_add (a b : Nat) : Nat := (a + b) % SIZE_MOD

/-- Subtraction of two `size_t` values. -/
def size_sub (a b : Nat) : Nat := (a % SIZE_MOD + SIZE_MOD - b % SIZE_MOD) % SIZE_MOD

/-- A string literal (or any NUL-terminated string) laid out in memory: its
bytes, then NUL bytes. -/
def cstr (l : List Nat) : Mem := fun i => l.getD i 0

/-- Pointer arithmetic `&m[k]`. -/
def offset (m : Mem) (k : Nat) : Mem := fun i => m (k + i)

/-- The first `n` bytes found at a pointer. -/
def bytes (m : Mem) (n : Nat) : List Nat := (List.range n).map m

/-- Assignment `m[i] = v`. -/
def mem_write (m : Mem) (i v : Nat) : Mem := fun j => if j = i then v else m j

/-- Result of `memcpy(dst + start, src, len)` seen from `dst`. -/
def memcpy (dst : Mem) (start : Nat) (src : Mem) (len : Nat) : Mem :=
  fun j => if start ≤ j ∧ j < start + len then src (j - start) else dst j

/-- Scan of `strnlen`: `i` is the number of bytes already seen to be non-NUL. -/
def strnlen_scan (s : Mem) : Nat → Nat → Nat
  | 0, i => i
  | k + 1, i => if s i = 0 then i else strnlen_scan s k (i + 1)

/-- Function `strnlen(s, maxlen)`. -/
def strnlen (s : Mem) (maxlen : Nat) : Nat := strnlen_scan s maxlen 0

/-- Value of `strlen` on a string literal whose bytes are `l`. -/
def strlen (l : List Nat) : Nat := strnlen (cstr l) l.length

/-- The string a NUL-terminated `char` array of `size` bytes holds. -/
def c_string (m : Mem) (size : Nat) : List Nat := bytes m (strnlen m size)

/-- Call `snprintf(dst, size, "%s", src)` seen from `dst`: at most `size - 1` bytes
of the string at `src`, then a NUL; the other bytes of `dst` are kept. -/
def snprintf_s (dst : Mem) (size : Nat) (src : Mem) : Mem :=
  if size = 0 then dst
  else fun j =>
    if j < strnlen src (size - 1) then src j
    else if j = strnlen src (size - 1) then 0
    else dst j

/-- Whether `strncmp(s1, s2, n) == 0`, comparing from offset `i` on. -/
def strncmp_eq (s1 s2 : Mem) : Nat → Nat → Bool
  | 0, _ => true
  | n + 1, i =>
    if s1 i ≠ s2 i then false
    else if s1 i = 0 then true
    else strncmp_eq s1 s2 n (i + 1)

/-! ## Constants of the program -/

/-- Build target selected by the `#ifdef` chain around `HOST`. -/
inductive Platform
  | apple
  | win32
  | linux
  | other
  deriving DecidableEq, Repr

/-- Macro `#define HOST`: "mac", "win", "linux" or "unknown". -/
def HOST : Platform → List Nat
  | .apple => [109, 97, 99]
  | .win32 => [119, 105, 110]
  | .linux => [108, 105, 110, 117, 120]
  | .other => [117, 110, 107, 110, 111, 119, 110]

/-- Macro `#define PREFIX "▒ "` (UTF-8: E2 96 92, then a space). -/
def PREFIX : List Nat := [226, 150, 146, 32]

/-- Macro `#define PROMPT_CHAR "℁"` (UTF-8: E2 84 81). -/
def PROMPT_CHAR : List Nat := [226, 132, 129]

/-- Macro `#define RESET "\033[0m"`. -/
def RESET : List Nat := [27, 91, 48, 109]

/-- Macro `#define BOLD_MAGENTA "\033[1;35m"`. -/
def BOLD_MAGENTA : List Nat := [27, 91, 49, 59, 51, 53, 109]

/-- Macro `#define DEFAULT_COLOR BOLD_MAGENTA`. -/
def DEFAULT_COLOR : List Nat := BOLD_MAGENTA

/-- Macro `#define COLORIZE(color, text) color text RESET`. -/
def COLORIZE (color text : List Nat) : List Nat := color ++ text ++ RESET

/-- Macro `#define CONCAT_3(thing1, thing2, thing3) thing1 thing2 thing3`. -/
def CONCAT_3 (thing1 thing2 thing3 : List Nat) : List Nat := thing1 ++ thing2 ++ thing3

/-- The literal `COLORIZE(DEFAULT_COLOR, PREFIX)` of `add_row_to_prompt`. -/
def ROW_PREFIX : List Nat := COLORIZE DEFAULT_COLOR PREFIX

/-- The literal of `add_bottom_row`: forty "▔" (UTF-8: E2 96 94), colourised. -/
def BOTTOM_ROW : List Nat :=
  COLORIZE DEFAULT_COLOR (List.replicate 40 [226, 150, 148]).flatten

/-- The literal `CONCAT_3("\n", PROMPT_CHAR, "\n")` of `add_prompt_char`. -/
def PROMPT_CHARS : List Nat := CONCAT_3 [10] PROMPT_CHAR [10]

/-- The literal "pwd: ". -/
def PWD_LABEL : List Nat := [112, 119, 100, 58, 32]

/-- The literal "Py env: ". -/
def PY_ENV_LABEL : List Nat := [80, 121, 32, 101, 110, 118, 58, 32]

/-- The literal "Using ". -/
def USING_LABEL : List Nat := [85, 115, 105, 110, 103, 32]

/-- The literal "On branch: ". -/
def ON_BRANCH_LABEL : List Nat := [79, 110, 32, 98, 114, 97, 110, 99, 104, 58, 32]

/-- The literal "ref: refs/heads/". -/
def STD_PREFIX : List Nat :=
  [114, 101, 102, 58, 32, 114, 101, 102, 115, 47, 104, 101, 97, 100, 115, 47]

/-- The literal "JJ@". -/
def USER_AT : List Nat := [74, 74, 64]

/-- The literal " in ". -/
def IN_LABEL : List Nat := [32, 105, 110, 32]

/-- The literal ".git". -/
def DOT_GIT : List Nat := [46, 103, 105, 116]

/-- The literal "HEAD". -/
def HEAD_NAME : List Nat := [72, 69, 65, 68]

/-- Constant `DT_DIR` of `dirent.h`. -/
def DT_DIR : Nat := 4

/-- Constant `DT_REG` of `dirent.h`. -/
def DT_REG : Nat := 8

/-! ## The output accumulator -/

/-- Type `typedef struct { size_t cur; char val[BUF_SIZE]; } StringBuffer;`
Offsets of `val` from `BUF_SIZE` on lie outside the array. -/
structure StringBuffer where
  cur : Nat
  val : Mem

/-- The initialiser `{0}`. -/
def StringBuffer.zero : StringBuffer := ⟨0, fun _ => 0⟩

/-- The bytes before the cursor. -/
def StringBuffer.text (b : StringBuffer) : List Nat := bytes b.val b.cur

/-- Function `is_small_enough`. -/
def is_small_enough (str_size cur : Nat) : Bool :=
  decide (str_size < MAX_LINE_SIZE) && decide (size_add cur str_size < BUF_SIZE)

/-- Function `sb_append`. -/
def sb_append (buffer : StringBuffer) (string : Mem) (len : Nat) : StringBuffer :=
  if size_add buffer.cur len < BUF_SIZE then
    let val := memcpy buffer.val buffer.cur string len
    let cur := size_add buffer.cur len
    ⟨cur, mem_write val cur 0⟩
  else buffer

/-- Function `add_row_to_prompt`. -/
def add_row_to_prompt (prompt : StringBuffer) (row : Mem) (row_size : Nat) : StringBuffer :=
  let prefix_size := strnlen (cstr ROW_PREFIX) MAX_LINE_SIZE
  let total_size := size_add row_size prefix_size
  if is_small_enough total_size prompt.cur then
    let p1 := sb_append prompt (cstr ROW_PREFIX) prefix_size
    let p2 := sb_append p1 row row_size
    ⟨size_add p2.cur 1, mem_write p2.val p2.cur 10⟩
  else prompt

/-- Function `add_bottom_row`. -/
def add_bottom_row (buffer : StringBuffer) : StringBuffer :=
  sb_append buffer (cstr BOTTOM_ROW) (strlen BOTTOM_ROW)

/-- Function `add_prompt_char`. -/
def add_prompt_char (buffer : StringBuffer) : StringBuffer :=
  sb_append buffer (cstr PROMPT_CHARS) (strlen PROMPT_CHARS)

/-! ## The path walker -/

/-- The `while` loop of `find_next_dir`, started at `cur`. -/
def find_next_dir_scan (path_string : Mem) : Nat → Nat
  | 0 => 0
  | cur + 1 =>
    if path_string (cur + 1) ≠ PATH_SEP then find_next_dir_scan path_string cur
    else cur + 1

/-- Function `find_next_dir`. -/
def find_next_dir (path_string : Mem) (current_idx : Nat) : Nat :=
  if current_idx = 0 then 0 else find_next_dir_scan path_string (current_idx - 1)

/-! ## Environment probes -/

/-- The length `env_name_size - next_idx - 1` that `add_python_env` passes to
`sb_append` for the name of the environment. -/
def python_env_name_len (pyenv : Mem) : Nat :=
  let env_name_size := strnlen pyenv MAX_LINE_SIZE
  let next_idx := find_next_dir pyenv env_name_size
  size_sub (size_sub env_name_size next_idx) 1

/-- The row buffer `add_python_env` builds from the value of `VIRTUAL_ENV`. -/
def python_env_row (pyenv : Mem) : StringBuffer :=
  let env := StringBuffer.zero
  let env_name_size := strnlen pyenv MAX_LINE_SIZE
  let next_idx := find_next_dir pyenv env_name_size
  let env := sb_append env (cstr PY_ENV_LABEL) (strlen PY_ENV_LABEL)
  sb_append env (offset pyenv (size_add next_idx 1)) (python_env_name_len pyenv)

/-- Function `add_python_env`; the argument `pyenv` is the result of `getenv("VIRTUAL_ENV")`. -/
def add_python_env (buffer : StringBuffer) (pyenv : Option Mem) : StringBuffer :=
  match pyenv with
  | none => buffer
  | some pyenv => add_row_to_prompt buffer (python_env_row pyenv).val (python_env_row pyenv).cur

/-- The row buffer `add_local_host_and_dir` builds. -/
def local_host_and_dir_row (host : Platform) (cwd : Mem) : StringBuffer :=
  let localhost := CONCAT_3 USER_AT (HOST host) IN_LABEL
  let row := StringBuffer.zero
  let row := sb_append row (cstr localhost) (strnlen (cstr localhost) MAX_LINE_SIZE)
  let cwd_start_idx := find_next_dir cwd (strnlen cwd MAX_LINE_SIZE)
  sb_append row (offset cwd (size_add cwd_start_idx 1))
    (strnlen (offset cwd (size_add cwd_start_idx 1)) MAX_LINE_SIZE)

/-- Function `add_local_host_and_dir`. -/
def add_local_host_and_dir (host : Platform) (buffer : StringBuffer) (cwd : Mem) :
    StringBuffer :=
  add_row_to_prompt buffer (local_host_and_dir_row host cwd).val
    (local_host_and_dir_row host cwd).cur

/-- The `for` loop of `add_long_cwd`, entered with index `i` and count
`directory_cnt`. -/
def count_directories (cwd : Mem) : Nat → Nat → Nat → Option Nat
  | 0, _, _ => none
  | fuel + 1, i, directory_cnt =>
    if i > 0 then
      count_directories cwd fuel (find_next_dir cwd i) (size_add directory_cnt 1)
    else some directory_cnt

/-- The row buffer `add_long_cwd` builds when the count is 5 or more. -/
def long_cwd_row (cwd : Mem) : StringBuffer :=
  let row : StringBuffer := ⟨5, cstr PWD_LABEL⟩
  let cwd_start_idx := find_next_dir cwd (strnlen cwd MAX_LINE_SIZE)
  sb_append row (offset cwd (size_add cwd_start_idx 1))
    (strnlen (offset (offset cwd cwd_start_idx) 1) MAX_LINE_SIZE)

/-- Function `add_long_cwd`. -/
def add_long_cwd (fuel : Nat) (buffer : StringBuffer) (cwd : Mem) : Option StringBuffer :=
  match count_directories cwd fuel (strnlen cwd MAX_LINE_SIZE) 0 with
  | none => none
  | some directory_cnt =>
    if directory_cnt ≥ 5 then
      some (add_row_to_prompt buffer (long_cwd_row cwd).val (long_cwd_row cwd).cur)
    else some buffer

/-- The `for` loop of `add_shell_info`; `i` is an `unsigned`. -/
def shell_copy_loop (shell : Mem) (shell_env_var_size : Nat) :
    Nat → Nat → StringBuffer → Option StringBuffer
  | 0, _, _ => none
  | fuel + 1, i, shell_info =>
    if i < shell_env_var_size then
      shell_copy_loop shell shell_env_var_size fuel ((i + 1) % UINT_MOD)
        ⟨size_add shell_info.cur 1, mem_write shell_info.val shell_info.cur (shell i)⟩
    else some shell_info

/-- The row buffer `add_shell_info` builds from the value of `SHELL`. -/
def shell_info_row (fuel : Nat) (shell : Mem) : Option StringBuffer :=
  let shell_env_var_size := strnlen shell MAX_LINE_SIZE
  let start_idx := 5
  let shell_info : StringBuffer := ⟨6, cstr USING_LABEL⟩
  shell_copy_loop shell shell_env_var_size fuel (start_idx % UINT_MOD) shell_info

/-- Function `add_shell_info`; the argument `shell` is the result of `getenv("SHELL")`. -/
def add_shell_info (fuel : Nat) (buffer : StringBuffer) (shell : Option Mem) :
    Option StringBuffer :=
  match shell with
  | none => some buffer
  | some shell =>
    match shell_info_row fuel shell with
    | none => none
    | some shell_info => some (add_row_to_prompt buffer shell_info.val shell_info.cur)

/-! ## The git locator and the HEAD parser -/

/-- A `struct dirent` as far as the program reads it. -/
structure DirEntry where
  d_type : Nat
  d_name : List Nat
  deriving DecidableEq, Repr

/-- What the system calls made by `add_git_info` answer. Paths and names are
the strings passed, without their terminator. -/
structure FileSystem where
  /-- Call `opendir(path)`: the entries `readdir` then yields, `none` for `NULL`. -/
  opendir : List Nat → Option (List DirEntry)
  /-- Whether `closedir` of the directory opened at `path` returns 0. -/
  closedir : List Nat → Bool
  /-- Whether `open(path, O_RDONLY | O_NONBLOCK)` returns a descriptor. -/
  open_file : List Nat → Bool
  /-- Call `read(fd, buf, count)` on the file opened at `path`: the bytes stored,
  `none` for -1. -/
  read : List Nat → Nat → Option (List Nat)
  /-- Indeterminate contents of automatic arrays before they are written. -/
  stack : Mem

/-- A system call or diagnostic of `add_git_info`, tagged with its source line. -/
inductive Event
  | opendir (line : Nat) (path : List Nat) (ok : Bool)
  | closedir (line : Nat) (path : List Nat) (ok : Bool)
  | open_file (line : Nat) (path : List Nat) (ok : Bool)
  | read (line : Nat) (path : List Nat) (ok : Bool)
  | stderr (line : Nat)
  deriving DecidableEq, Repr

/-- Outcome of `add_git_info` apart from the accumulator: the calls made, and
the arguments `row`, `row_size` of its call of `add_row_to_prompt`, if any. -/
structure GitResult where
  log : List Event
  row : Option (Mem × Nat)

/-- Function `exists`: scans the entries `readdir` yields. -/
def exists_entry (directory : List DirEntry) (name : List Nat) (file_type : Nat) : Bool :=
  match directory with
  | [] => false
  | entry :: rest =>
    if entry.d_type = file_type ∧ entry.d_name = name then true
    else exists_entry rest name file_type

/-- Call `snprintf(dst, size, "%s<suffix>", s)`: the string left in `dst`. -/
def snprintf_join (size : Nat) (s suffix : List Nat) : List Nat :=
  (s ++ suffix).take (size - 1)

/-- The `for` loop copying the branch name (lines 198 to 202); `i` is an
`unsigned`. -/
def branch_copy_loop (branch_info : Mem) (std_prefix_size branch_size : Nat) :
    Nat → Nat → StringBuffer → Option StringBuffer
  | 0, _, _ => none
  | fuel + 1, i, git_branch_info =>
    if i < branch_size then
      branch_copy_loop branch_info std_prefix_size branch_size fuel ((i + 1) % UINT_MOD)
        ⟨size_add git_branch_info.cur 1,
          mem_write git_branch_info.val git_branch_info.cur
            (branch_info (size_add std_prefix_size i))⟩
    else some git_branch_info

/-- Line 187 of `add_git_info`, `branch_info[bytes_read] = 0`. The array
`branch_info` has `MAX_LINE_SIZE` elements. -/
def terminate_branch_info (branch_info : Mem) (bytes_read : Nat) : Mem :=
  mem_write branch_info bytes_read 0

/-- The HEAD parser (lines 187 to 211 of `add_git_info`): from the array
`branch_info` as `read` left it and the count `bytes_read`, the arguments
`row`, `row_size` passed to `add_row_to_prompt`. `stack` is what the array
`detached_sha` holds before it is written. -/
def parse_head (fuel : Nat) (stack : Mem) (branch_info : Mem) (bytes_read : Nat) :
    Option (Mem × Nat) :=
  let branch_info := terminate_branch_info branch_info bytes_read
  let std_prefix_size := strnlen (cstr STD_PREFIX) MAX_LINE_SIZE
  if strncmp_eq branch_info (cstr STD_PREFIX) std_prefix_size 0 then
    let git_branch_info : StringBuffer := ⟨11, cstr ON_BRANCH_LABEL⟩
    let branch_size := size_sub (size_sub bytes_read std_prefix_size) 1
    match branch_copy_loop branch_info std_prefix_size branch_size fuel 0 git_branch_info with
    | none => none
    | some git_branch_info => some (git_branch_info.val, git_branch_info.cur)
  else
    let detached_sha := snprintf_s stack 7 branch_info
    some (detached_sha, 7)

/-- The array `branch_info` after `read` stored `data` in it. -/
def branch_info_after_read (stack : Mem) (data : List Nat) : Mem :=
  fun i => if i < data.length then data.getD i 0 else stack i

/-- Lines 158 to 219 of `add_git_info`: a `.git` directory was found in the
directory named `dirname`. -/
def read_git_head (fs : FileSystem) (fuel : Nat) (dirname : List Nat) (log : List Event) :
    Option GitResult :=
  let git_dirname := snprintf_join MAX_LINE_SIZE dirname (PATH_SEP :: DOT_GIT)
  match fs.opendir git_dirname with
  | none => some ⟨log ++ [.opendir 160 git_dirname false, .stderr 163], none⟩
  | some git_dir =>
    if exists_entry git_dir HEAD_NAME DT_REG then
      let git_head := snprintf_join MAX_LINE_SIZE git_dirname (PATH_SEP :: HEAD_NAME)
      if fs.open_file git_head then
        match fs.read git_head MAX_LINE_SIZE with
        | none =>
          some ⟨log ++ [.opendir 160 git_dirname true, .open_file 172 git_head true,
            .read 181 git_head false, .stderr 184], none⟩
        | some data =>
          let data := data.take MAX_LINE_SIZE
          match parse_head fuel fs.stack (branch_info_after_read fs.stack data) data.length with
          | none => none
          | some row =>
            some ⟨log ++ [.opendir 160 git_dirname true, .open_file 172 git_head true,
              .read 181 git_head true, .closedir 212 git_dirname true], some row⟩
      else
        some ⟨log ++ [.opendir 160 git_dirname true, .open_file 172 git_head false,
          .stderr 175], none⟩
    else some ⟨log ++ [.opendir 160 git_dirname true, .stderr 217], none⟩

/-- The `while` loop of `add_git_info`, entered with index `cur` and the array
`dirname`. -/
def add_git_info_walk (fs : FileSystem) (cwd : Mem) (copy_fuel : Nat) :
    Nat → Nat → Mem → List Event → Option GitResult
  | 0, _, _, _ => none
  | fuel + 1, cur, dirname, log =>
    if cur > 0 then
      match fs.opendir (c_string dirname MAX_LINE_SIZE) with
      | none => some ⟨log ++ [.opendir 150 (c_string dirname MAX_LINE_SIZE) false, .stderr 153], none⟩
      | some dir =>
        if exists_entry dir DOT_GIT DT_DIR then
          read_git_head fs copy_fuel (c_string dirname MAX_LINE_SIZE)
            (log ++ [.opendir 150 (c_string dirname MAX_LINE_SIZE) true])
        else if fs.closedir (c_string dirname MAX_LINE_SIZE) then
          add_git_info_walk fs cwd copy_fuel fuel (find_next_dir dirname cur)
            (snprintf_s dirname (size_add (find_next_dir dirname cur) 1) cwd)
            (log ++ [.opendir 150 (c_string dirname MAX_LINE_SIZE) true,
              .closedir 221 (c_string dirname MAX_LINE_SIZE) true])
        else
          some ⟨log ++ [.opendir 150 (c_string dirname MAX_LINE_SIZE) true,
            .closedir 221 (c_string dirname MAX_LINE_SIZE) false, .stderr 223], none⟩
    else some ⟨log, none⟩

/-- The walk of `add_git_info` from the working directory `cwd`. -/
def git_info (fs : FileSystem) (fuel : Nat) (cwd : Mem) : Option GitResult :=
  add_git_info_walk fs cwd fuel fuel (strnlen cwd MAX_LINE_SIZE)
    (snprintf_s fs.stack MAX_LINE_SIZE cwd) []

/-- Function `add_git_info`. -/
def add_git_info (fs : FileSystem) (fuel : Nat) (buffer : StringBuffer) (cwd : Mem) :
    Option StringBuffer :=
  match git_info fs fuel cwd with
  | none => none
  | some r =>
    match r.row with
    | none => some buffer
    | some row => some (add_row_to_prompt buffer row.1 row.2)

/-- The directories the walk tried to open as candidates (line 150), in order. -/
def probed (log : List Event) : List (List Nat) :=
  log.filterMap fun e =>
    match e with
    | .opendir 150 path _ => some path
    | _ => none

/-! ## The program -/

/-- Function `main`, up to the call of `printf`: the accumulator it prints. The
arguments are the results of `getenv` for `VIRTUAL_ENV`, `PWD` and `SHELL`. -/
def main (host : Platform) (fs : FileSystem) (fuel : Nat)
    (virtual_env pwd shell : Option Mem) : Option StringBuffer :=
  let output := add_python_env StringBuffer.zero virtual_env
  let after_cwd : Option StringBuffer :=
    match pwd with
    | none => some output
    | some cwd =>
      match add_long_cwd fuel (add_local_host_and_dir host output cwd) cwd with
      | none => none
      | some output => add_git_info fs fuel output cwd
  match after_cwd with
  | none => none
  | some output =>
    match add_shell_info fuel output shell with
    | none => none
    | some output => some (add_prompt_char (add_bottom_row output))

/-! ## Vocabulary of the statements -/

/-- A list of bytes none of which is NUL. -/
def NulFree (l : List Nat) : Prop := ∀ x ∈ l, x ≠ 0

instance (l : List Nat) : Decidable (NulFree l) :=
  inferInstanceAs (Decidable (∀ x ∈ l, x ≠ 0))

/-- The absolute path "/s1/s2/.../sn" with the given segments. -/
def abs_path (segments : List (List Nat)) : List Nat :=
  (segments.map fun s => PATH_SEP :: s).flatten

/-- A path segment: not empty, no separator, no NUL. -/
def IsSegment (s : List Nat) : Prop := s ≠ [] ∧ PATH_SEP ∉ s ∧ NulFree s

instance (s : List Nat) : Decidable (IsSegment s) :=
  inferInstanceAs (Decidable (s ≠ [] ∧ PATH_SEP ∉ s ∧ NulFree s))

/-- One output line: the coloured prefix, the fragment, a line feed. -/
def row_line (fragment : List Nat) : List Nat := ROW_PREFIX ++ fragment ++ [10]

/-- The accumulator invariant of the specification: the cursor leaves room
for a terminator. -/
def CursorInBounds (b : StringBuffer) : Prop := b.cur ≤ BUF_SIZE - 1

instance (b : StringBuffer) : Decidable (CursorInBounds b) :=
  inferInstanceAs (Decidable (b.cur ≤ BUF_SIZE - 1))

/-- Number of positions `j` with `0 < j < i` at which `m` holds the separator. -/
def sep_count (m : Mem) : Nat → Nat
  | 0 => 0
  | i + 1 => sep_count m i + (if 0 < i ∧ m i = PATH_SEP then 1 else 0)

/-- A HEAD file of a detached checkout: the 40 hexadecimal digits
"0123456789abcdef0123456789abcdef01234567" and a line feed. -/
def DETACHED_HEAD : List Nat :=
  [48, 49, 50, 51, 52, 53, 54, 55, 56, 57, 97, 98, 99, 100, 101, 102,
   48, 49, 50, 51, 52, 53, 54, 55, 56, 57, 97, 98, 99, 100, 101, 102,
   48, 49, 50, 51, 52, 53, 54, 55, 10]

/-- The branch name "main". -/
def MAIN_BRANCH : List Nat := [109, 97, 105, 110]

/-- The working directory "/a/b/c/d/e/f". -/
def DEEP_CWD : List Nat := [47, 97, 47, 98, 47, 99, 47, 100, 47, 101, 47, 102]

/-- The directories "/s1/.../sn", "/s1/.../s(n-1)", ..., "/s1": the working
directory and its ancestors other than the root, going up. -/
def probe_order (segments : List (List Nat)) : List (List Nat) :=
  segments.inits.reverse.dropLast.map abs_path

/-- A file system in which every directory can be opened and closed and has
no entry, and no file can be read. -/
def EMPTY_FS : FileSystem :=
  { opendir := fun _ => some []
    closedir := fun _ => true
    open_file := fun _ => true
    read := fun _ _ => none
    stack := fun _ => 0 }

/-- Number of calls of `find_next_dir` that lead from the end of the string
at `cwd` to index 0; for an absolute path this is its number of segments. -/
def segment_count (cwd : Mem) : Nat :=
  if strnlen cwd MAX_LINE_SIZE = 0 then 0
  else sep_count cwd (strnlen cwd MAX_LINE_SIZE) + 1

/-- The user/host/directory row: present when `PWD` is set. -/
def host_line (host : Platform) (pwd : Option Mem) : List Nat :=
  match pwd with
  | none => []
  | some cwd => row_line (local_host_and_dir_row host cwd).text

/-- A file system whose directory "/a" is a git working tree on branch "main". -/
def DEMO_FS : FileSystem :=
  { opendir := fun path =>
      if path = [47, 97] then some [⟨DT_DIR, DOT_GIT⟩]
      else if path = [47, 97, 47, 46, 103, 105, 116] then some [⟨DT_REG, HEAD_NAME⟩]
      else some []
    closedir := fun _ => true
    open_file := fun _ => true
    read := fun _ _ => some (STD_PREFIX ++ MAIN_BRANCH ++ [10])
    stack := fun _ => 0 }

/-- The value "/bin/sh" of `SHELL`. -/
def BIN_SH : List Nat := [47, 98, 105, 110, 47, 115, 104]

/-- The part of a path after its last separator; the whole path when it
holds no separator. -/
def final_segment : List Nat → List Nat
  | [] => []
  | c :: rest =>
    if PATH_SEP ∈ rest then final_segment rest
    else if c = PATH_SEP then rest
    else c :: rest

/-- The value "/home/user/.venvs/myproj" of `VIRTUAL_ENV`. -/
def VENV_PATH : List Nat :=
  [47, 104, 111, 109, 101, 47, 117, 115, 101, 114, 47, 46, 118, 101, 110, 118, 115,
   47, 109, 121, 112, 114, 111, 106]

/-- The text "myproj". -/
def MYPROJ : List Nat := [109, 121, 112, 114, 111, 106]

/-- The working directory "/a/b/c". -/
def SHALLOW_CWD : List Nat := [47, 97, 47, 98, 47, 99]

/-- Memory `m` holds the string `s`: its bytes, then the terminator. Nothing
is said about the bytes after the terminator. -/
def HoldsString (m : Mem) (s : List Nat) : Prop :=
  (∀ i, i < s.length → m i = cstr s i) ∧ m s.length = 0

/-- The value "/bin/zsh" of `SHELL`. -/
def BIN_ZSH : List Nat := [47, 98, 105, 110, 47, 122, 115, 104]

/-- The four rows that fill the accumulator up to its last element: three
rows of 1008 bytes and one of 1007 bytes, all "a". -/
def NEARLY_FULL : StringBuffer :=
  add_row_to_prompt
    (add_row_to_prompt
      (add_row_to_prompt (add_row_to_prompt StringBuffer.zero (fun _ => 97) 1008)
        (fun _ => 97) 1008)
      (fun _ => 97) 1008)
    (fun _ => 97) 1007

/-- The handles left open by a log: every path opened with `opendir` or
`open` and not closed by a later `closedir`. -/
def open_handles (log : List Event) : List (List Nat) :=
  log.foldl (fun acc e =>
    match e with
    | .opendir _ path true => acc ++ [path]
    | .open_file _ path true => acc ++ [path]
    | .closedir _ path true => acc.erase path
    | _ => acc) []

/-- What `printf("%s", output.val)` writes: the bytes before the first NUL
(looked for inside the array). -/
def printed (output : StringBuffer) : List Nat :=
  bytes output.val (strnlen output.val BUF_SIZE)

/-- A file system whose directory "/a" is a git working tree with a detached
HEAD. -/
def DETACHED_FS : FileSystem :=
  { opendir := fun path =>
      if path = [47, 97] then some [⟨DT_DIR, DOT_GIT⟩]
      else if path = [47, 97, 47, 46, 103, 105, 116] then some [⟨DT_REG, HEAD_NAME⟩]
      else some []
    closedir := fun _ => true
    open_file := fun _ => true
    read := fun _ _ => some DETACHED_HEAD
    stack := fun _ => 0 }

/-- A file system whose root directory "/" is a git working tree on branch
"main": the control directory is "/.git", which the program names "//.git"
when it starts from "/". Every other directory is empty. -/
def ROOT_REPO_FS : FileSystem :=
  { opendir := fun path =>
      if path = [47] then some [⟨DT_DIR, DOT_GIT⟩]
      else if path = [47, 46, 103, 105, 116] ∨ path = [47, 47, 46, 103, 105, 116] then
        some [⟨DT_REG, HEAD_NAME⟩]
      else some []
    closedir := fun _ => true
    open_file := fun _ => true
    read := fun _ _ => some (STD_PREFIX ++ MAIN_BRANCH ++ [10])
    stack := fun _ => 0 }

/-! ## Lemmas on memory and sizes -/

theorem bytes_length (m : Mem) (n : Nat) : (bytes m n).length = n := by
  simp [bytes]

theorem bytes_congr {m m2 : Mem} {n : Nat} (h : ∀ i, i < n → m i = m2 i) :
    bytes m n = bytes m2 n := by
  unfold bytes
  apply List.map_congr_left
  intro i hi
  exact h i (List.mem_range.mp hi)

theorem bytes_add (m : Mem) (a b : Nat) :
    bytes m (a + b) = bytes m a ++ bytes (offset m a) b := by
  simp [bytes, List.range_add, List.map_map, offset, Function.comp_def]

theorem bytes_getElem (m : Mem) (n i : Nat) (h : i < (bytes m n).length) :
    (bytes m n)[i] = m i := by
  simp [bytes]

theorem cstr_lt (l : List Nat) (i : Nat) (h : i < l.length) : cstr l i = l[i] := by
  simp [cstr, List.getD_eq_getElem?_getD, List.getElem?_eq_getElem h]

theorem cstr_ge (l : List Nat) (i : Nat) (h : l.length ≤ i) : cstr l i = 0 := by
  simp [cstr, List.getD_eq_getElem?_getD, List.getElem?_eq_none h]

theorem bytes_cstr (l : List Nat) : bytes (cstr l) l.length = l := by
  apply List.ext_getElem
  · simp [bytes_length]
  · intro i h1 h2
    rw [bytes_getElem, cstr_lt l i h2]

theorem size_add_eq {a b : Nat} (h : a + b < SIZE_MOD) : size_add a b = a + b := by
  unfold size_add
  exact Nat.mod_eq_of_lt h

theorem strnlen_scan_eq (s : Mem) (k i n : Nat)
    (hnz : ∀ j, i ≤ j → j < n → s j ≠ 0) (hin : i ≤ n) (hnk : n ≤ i + k)
    (hstop : s n = 0 ∨ n = i + k) : strnlen_scan s k i = n := by
  induction k generalizing i with
  | zero =>
    simp only [strnlen_scan]
    omega
  | succ k ih =>
    simp only [strnlen_scan]
    by_cases hi : i = n
    · subst hi
      rcases hstop with h | h
      · simp [h]
      · omega
    · have hlt : i < n := by omega
      have : s i ≠ 0 := hnz i (le_refl i) hlt
      simp only [this, if_false]
      apply ih (i + 1)
      · intro j hj1 hj2
        exact hnz j (by omega) hj2
      · omega
      · omega
      · rcases hstop with h | h
        · exact Or.inl h
        · exact Or.inr (by omega)

theorem strnlen_eq (s : Mem) (maxlen n : Nat) (hnz : ∀ j, j < n → s j ≠ 0)
    (hn : n ≤ maxlen) (hstop : s n = 0 ∨ n = maxlen) : strnlen s maxlen = n := by
  unfold strnlen
  apply strnlen_scan_eq
  · intro j _ hj
    exact hnz j hj
  · omega
  · omega
  · simpa using hstop

theorem strnlen_cstr (l : List Nat) (maxlen : Nat) (hl : NulFree l) (h : l.length ≤ maxlen) :
    strnlen (cstr l) maxlen = l.length := by
  apply strnlen_eq
  · intro j hj
    rw [cstr_lt l j hj]
    exact hl _ (List.getElem_mem hj)
  · exact h
  · exact Or.inl (cstr_ge l _ (le_refl _))

theorem prefix_size_eq : strnlen (cstr ROW_PREFIX) MAX_LINE_SIZE = 15 := by
  rw [strnlen_cstr _ _ (by decide) (by decide)]
  decide

theorem bottom_row_length : BOTTOM_ROW.length = 131 := by
  simp [BOTTOM_ROW, COLORIZE, DEFAULT_COLOR, BOLD_MAGENTA, RESET]

theorem bottom_row_nul_free : NulFree BOTTOM_ROW := by
  intro x hx
  simp only [BOTTOM_ROW, COLORIZE, DEFAULT_COLOR, BOLD_MAGENTA, RESET, List.mem_append,
    List.mem_flatten, List.mem_replicate] at hx
  rcases hx with (hx | ⟨l, ⟨_, rfl⟩, hx⟩) | hx <;> simp at hx <;> omega

theorem bottom_row_size_eq : strlen BOTTOM_ROW = 131 := by
  unfold strlen
  rw [strnlen_cstr _ _ bottom_row_nul_free (le_refl _), bottom_row_length]

theorem prompt_chars_size_eq : strlen PROMPT_CHARS = 5 := by decide

/-! ## Lemmas on the accumulator -/

theorem sb_append_fits (b : StringBuffer) (s : Mem) (n : Nat) (h : b.cur + n < BUF_SIZE) :
    sb_append b s n = ⟨b.cur + n, mem_write (memcpy b.val b.cur s n) (b.cur + n) 0⟩ := by
  have h2 : size_add b.cur n = b.cur + n := by
    apply size_add_eq
    simp only [BUF_SIZE, SIZE_MOD] at *
    omega
  simp [sb_append, h2, h]

theorem sb_append_full (b : StringBuffer) (s : Mem) (n : Nat) (h : BUF_SIZE ≤ b.cur + n)
    (hw : b.cur + n < SIZE_MOD) : sb_append b s n = b := by
  have h2 : size_add b.cur n = b.cur + n := size_add_eq hw
  simp [sb_append, h2, h]

theorem sb_append_text (b : StringBuffer) (s : Mem) (n : Nat) (h : b.cur + n < BUF_SIZE) :
    (sb_append b s n).text = b.text ++ bytes s n := by
  rw [sb_append_fits b s n h]
  simp only [StringBuffer.text]
  rw [bytes_add]
  congr 1
  · apply bytes_congr
    intro i hi
    have h1 : i ≠ b.cur + n := by omega
    have h2 : ¬ (b.cur ≤ i ∧ i < b.cur + n) := by omega
    simp [mem_write, memcpy, h1, h2]
  · apply bytes_congr
    intro i hi
    have h1 : b.cur + i ≠ b.cur + n := by omega
    simp [offset, mem_write, memcpy, h1, hi]

theorem sb_append_cur_le (b : StringBuffer) (s : Mem) (n : Nat) (h : b.cur ≤ BUF_SIZE - 1) :
    (sb_append b s n).cur ≤ BUF_SIZE - 1 := by
  unfold sb_append
  split
  · simp only [BUF_SIZE] at *
    omega
  · exact h

theorem add_row_to_prompt_fits (b : StringBuffer) (row : Mem) (n : Nat)
    (hn : n + 15 < MAX_LINE_SIZE) (hc : b.cur + n + 15 < BUF_SIZE) :
    add_row_to_prompt b row n =
      ⟨b.cur + n + 16,
        mem_write (sb_append (sb_append b (cstr ROW_PREFIX) 15) row n).val (b.cur + n + 15) 10⟩ := by
  have h1 : size_add n 15 = n + 15 := by
    apply size_add_eq
    simp only [MAX_LINE_SIZE, SIZE_MOD] at *
    omega
  have h2 : size_add b.cur (n + 15) = b.cur + (n + 15) := by
    apply size_add_eq
    simp only [BUF_SIZE, SIZE_MOD] at *
    omega
  have h3 : (sb_append b (cstr ROW_PREFIX) 15).cur = b.cur + 15 := by
    rw [sb_append_fits _ _ _ (by omega)]
  have h4 : (sb_append (sb_append b (cstr ROW_PREFIX) 15) row n).cur = b.cur + n + 15 := by
    have hx : (sb_append b (cstr ROW_PREFIX) 15).cur + n < BUF_SIZE := by
      rw [h3]
      omega
    rw [sb_append_fits _ _ _ hx, h3]
    show b.cur + 15 + n = b.cur + n + 15
    omega
  have h5 : size_add (b.cur + n + 15) 1 = b.cur + n + 16 := by
    rw [size_add_eq]
    simp only [BUF_SIZE, SIZE_MOD] at *
    omega
  have h6 : is_small_enough (n + 15) b.cur = true := by
    simp only [is_small_enough, h2, Bool.and_eq_true, decide_eq_true_eq]
    omega
  unfold add_row_to_prompt
  simp only [prefix_size_eq, h1, h6, if_true, h4, h5]

theorem add_row_to_prompt_text (b : StringBuffer) (row : Mem) (n : Nat)
    (hn : n + 15 < MAX_LINE_SIZE) (hc : b.cur + n + 15 < BUF_SIZE) :
    (add_row_to_prompt b row n).text = b.text ++ ROW_PREFIX ++ bytes row n ++ [10] := by
  have h3 : (sb_append b (cstr ROW_PREFIX) 15).cur = b.cur + 15 := by
    rw [sb_append_fits _ _ _ (by omega)]
  have h4 : (sb_append (sb_append b (cstr ROW_PREFIX) 15) row n).cur = b.cur + n + 15 := by
    have hx : (sb_append b (cstr ROW_PREFIX) 15).cur + n < BUF_SIZE := by
      rw [h3]
      omega
    rw [sb_append_fits _ _ _ hx, h3]
    show b.cur + 15 + n = b.cur + n + 15
    omega
  have ht : (sb_append (sb_append b (cstr ROW_PREFIX) 15) row n).text
      = b.text ++ ROW_PREFIX ++ bytes row n := by
    have hx : (sb_append b (cstr ROW_PREFIX) 15).cur + n < BUF_SIZE := by
      rw [h3]
      omega
    rw [sb_append_text _ _ _ hx, sb_append_text _ _ _ (by omega)]
    have : bytes (cstr ROW_PREFIX) 15 = ROW_PREFIX := bytes_cstr ROW_PREFIX
    rw [this]
  rw [add_row_to_prompt_fits b row n hn hc]
  simp only [StringBuffer.text] at ht ⊢
  rw [show b.cur + n + 16 = (b.cur + n + 15) + 1 by omega, bytes_add, ← ht, h4]
  congr 1
  · apply bytes_congr
    intro i hi
    have : i ≠ b.cur + n + 15 := by omega
    simp [mem_write, this]
  · simp [bytes, offset, mem_write, List.range_succ]

theorem add_row_to_prompt_dropped (b : StringBuffer) (row : Mem) (n : Nat)
    (hw : n + 15 < SIZE_MOD) (hb : b.cur ≤ BUF_SIZE - 1)
    (h : ¬ (n + 15 < MAX_LINE_SIZE ∧ b.cur + n + 15 < BUF_SIZE)) :
    add_row_to_prompt b row n = b := by
  have h1 : size_add n 15 = n + 15 := size_add_eq hw
  have h6 : is_small_enough (n + 15) b.cur = false := by
    simp only [is_small_enough, Bool.and_eq_false_iff, decide_eq_false_iff_not]
    by_cases hn : n + 15 < MAX_LINE_SIZE
    · right
      have h2 : size_add b.cur (n + 15) = b.cur + (n + 15) := by
        apply size_add_eq
        simp only [BUF_SIZE, MAX_LINE_SIZE, SIZE_MOD] at *
        omega
      rw [h2]
      have := fun hc => h ⟨hn, hc⟩
      omega
    · left
      exact hn
  unfold add_row_to_prompt
  simp only [prefix_size_eq, h1, h6]
  rfl

theorem add_bottom_row_cur_le (b : StringBuffer) (h : CursorInBounds b) :
    CursorInBounds (add_bottom_row b) :=
  sb_append_cur_le b _ _ h

theorem add_prompt_char_cur_le (b : StringBuffer) (h : CursorInBounds b) :
    CursorInBounds (add_prompt_char b) :=
  sb_append_cur_le b _ _ h

/-! ## The output accumulator: verified properties -/

/-- C1 (defect in the code). `sb_append` does not skip every length that
does not fit. Its guard adds cursor and length in `size_t`. On the row buffer
of `add_python_env` (cursor 8, holding "Py env: ") and the length `2^64 - 1`,
which is the length `add_python_env` computes when `VIRTUAL_ENV` is the empty
string, cursor plus length is far above the capacity, yet the sum wraps to 7,
the guard passes, `memcpy` is called with that length, the cursor becomes 7
and byte 7 of the contents changes from a space to NUL. -/
theorem sb_append_guard_wraps :
    (sb_append StringBuffer.zero (cstr PY_ENV_LABEL) (strlen PY_ENV_LABEL)).cur = 8 ∧
    python_env_name_len (cstr []) = SIZE_MOD - 1 ∧
    BUF_SIZE ≤ 8 + (SIZE_MOD - 1) ∧
    (sb_append (sb_append StringBuffer.zero (cstr PY_ENV_LABEL) (strlen PY_ENV_LABEL))
      (offset (cstr []) 1) (SIZE_MOD - 1)).cur = 7 ∧
    (sb_append StringBuffer.zero (cstr PY_ENV_LABEL) (strlen PY_ENV_LABEL)).val 7 = 32 ∧
    (sb_append (sb_append StringBuffer.zero (cstr PY_ENV_LABEL) (strlen PY_ENV_LABEL))
      (offset (cstr []) 1) (SIZE_MOD - 1)).val 7 = 0 := by
  refine ⟨by decide, ?_, by decide, by decide, by decide, by decide⟩
  show size_sub (size_sub (strnlen (cstr []) MAX_LINE_SIZE)
    (find_next_dir (cstr []) (strnlen (cstr []) MAX_LINE_SIZE))) 1 = SIZE_MOD - 1
  decide

/-- C2. For every accumulator whose cursor `c` is at most 4095 and every row
fragment of size `n`, `add_row_to_prompt` is all or nothing: when
`n + 15 < 1024` and `c + n + 15 < 4096` (15 is the length of the prefix) the
new contents are the old ones, the 15-byte prefix, the `n` bytes of the row
and a line feed, and the cursor is `c + n + 16`; in every other case the
accumulator, cursor and contents, is unchanged. The size of a fragment is
that of an object in memory beside the 16 bytes of the prefix literal, so
`n + 15 < 2^64`; this covers every size up to `2^64 - 16`. -/
theorem add_row_to_prompt_all_or_nothing (b : StringBuffer) (row : Mem) (n : Nat)
    (hb : CursorInBounds b) (hw : n + 15 < SIZE_MOD) :
    ROW_PREFIX.length = 15 ∧
    ((n + 15 < MAX_LINE_SIZE ∧ b.cur + n + 15 < BUF_SIZE) →
      (add_row_to_prompt b row n).text = b.text ++ ROW_PREFIX ++ bytes row n ++ [10] ∧
      (add_row_to_prompt b row n).cur = b.cur + n + 16) ∧
    (¬ (n + 15 < MAX_LINE_SIZE ∧ b.cur + n + 15 < BUF_SIZE) →
      add_row_to_prompt b row n = b) := by
  refine ⟨by decide, ?_, ?_⟩
  · rintro ⟨hn, hc⟩
    refine ⟨add_row_to_prompt_text b row n hn hc, ?_⟩
    rw [add_row_to_prompt_fits b row n hn hc]
  · intro h
    exact add_row_to_prompt_dropped b row n hw hb h

/-- Witness for C2: a 6-byte row appended to the empty accumulator is written
whole; a row of the largest size covered, `2^64 - 16`, is dropped. -/
theorem add_row_to_prompt_all_or_nothing_witness :
    CursorInBounds StringBuffer.zero ∧ 6 + 15 < SIZE_MOD ∧
    (add_row_to_prompt StringBuffer.zero (cstr USING_LABEL) 6).cur = 22 ∧
    (SIZE_MOD - 16) + 15 < SIZE_MOD ∧
    add_row_to_prompt StringBuffer.zero (cstr []) (SIZE_MOD - 16) = StringBuffer.zero := by
  refine ⟨by decide, by decide, ?_, by decide, ?_⟩
  · have h := (add_row_to_prompt_all_or_nothing StringBuffer.zero (cstr USING_LABEL) 6
      (by decide) (by decide)).2.1 (by decide)
    exact h.2
  · exact (add_row_to_prompt_all_or_nothing StringBuffer.zero (cstr []) (SIZE_MOD - 16)
      (by decide) (by decide)).2.2 (by decide)

/-- C3 (defect in the code). `add_row_to_prompt` does not keep the cursor at
or below 4095. Its size check covers the prefix and the row but not the line
feed written after them: from the accumulator reached by appending 4074 bytes
to the empty one (cursor 4074), the row "Using " of 6 bytes passes the check
(4074 + 6 + 15 = 4095 < 4096) and the cursor ends at 4096. -/
theorem add_row_to_prompt_cursor_reaches_capacity :
    CursorInBounds (sb_append StringBuffer.zero (cstr []) 4074) ∧
    (add_row_to_prompt (sb_append StringBuffer.zero (cstr []) 4074) (cstr USING_LABEL) 6).cur
      = 4096 ∧
    ¬ CursorInBounds
      (add_row_to_prompt (sb_append StringBuffer.zero (cstr []) 4074) (cstr USING_LABEL) 6) := by
  decide

/-! ## The path walker: verified properties -/

theorem find_next_dir_scan_spec (p : Mem) (c : Nat) :
    find_next_dir_scan p c ≤ c ∧
    (find_next_dir_scan p c ≠ 0 → p (find_next_dir_scan p c) = PATH_SEP) ∧
    (∀ j, find_next_dir_scan p c < j → j ≤ c → p j ≠ PATH_SEP) := by
  induction c with
  | zero =>
    refine ⟨le_refl _, ?_, ?_⟩
    · intro h
      exact absurd rfl h
    · intro j h1 h2
      simp only [find_next_dir_scan] at h1
      omega
  | succ c ih =>
    by_cases hsep : p (c + 1) = PATH_SEP
    · have hr : find_next_dir_scan p (c + 1) = c + 1 := by
        simp [find_next_dir_scan, hsep]
      rw [hr]
      refine ⟨le_refl _, fun _ => hsep, ?_⟩
      intro j h1 h2
      omega
    · have hr : find_next_dir_scan p (c + 1) = find_next_dir_scan p c := by
        simp [find_next_dir_scan, hsep]
      rw [hr]
      refine ⟨by omega, ih.2.1, ?_⟩
      intro j h1 h2
      by_cases hj : j = c + 1
      · rw [hj]
        exact hsep
      · exact ih.2.2 j h1 (by omega)

theorem find_next_dir_lt (p : Mem) (i : Nat) (hi : 0 < i) : find_next_dir p i < i := by
  have h := (find_next_dir_scan_spec p (i - 1)).1
  have hne : i ≠ 0 := by omega
  simp only [find_next_dir, hne, if_false]
  omega

theorem find_next_dir_sep (p : Mem) (i : Nat) (h : find_next_dir p i ≠ 0) :
    p (find_next_dir p i) = PATH_SEP := by
  by_cases hi : i = 0
  · simp [find_next_dir, hi] at h
  · simp only [find_next_dir, hi, if_false] at h ⊢
    exact (find_next_dir_scan_spec p (i - 1)).2.1 h

theorem find_next_dir_none_between (p : Mem) (i j : Nat) (h1 : find_next_dir p i < j)
    (h2 : j < i) : p j ≠ PATH_SEP := by
  have hi : i ≠ 0 := by omega
  simp only [find_next_dir, hi, if_false] at h1
  exact (find_next_dir_scan_spec p (i - 1)).2.2 j h1 (by omega)

theorem find_next_dir_ge_of_sep (p : Mem) (i j : Nat) (hj2 : j < i) (hj3 : p j = PATH_SEP) :
    j ≤ find_next_dir p i := by
  by_contra hlt
  exact find_next_dir_none_between p i j (by omega) hj2 hj3

/-- C7. For every path `p` and every index `i > 0` (in particular every
`i` up to the length of `p`), the result `r` of `find_next_dir p i` is the
largest position `j` with `0 < j < i` at which `p` holds the separator: a
non-zero `r` is such a position, and every such position is at most `r`; when
no such position exists `r` is 0. Hence `r < i`; and `find_next_dir p 0 = 0`. -/
theorem find_next_dir_largest_separator (p : Mem) (i : Nat) (hi : 0 < i) :
    (find_next_dir p i ≠ 0 →
      0 < find_next_dir p i ∧ find_next_dir p i < i ∧ p (find_next_dir p i) = PATH_SEP) ∧
    (∀ j, 0 < j → j < i → p j = PATH_SEP → j ≤ find_next_dir p i) ∧
    ((∀ j, 0 < j → j < i → p j ≠ PATH_SEP) → find_next_dir p i = 0) ∧
    find_next_dir p i < i ∧
    find_next_dir p 0 = 0 := by
  refine ⟨?_, ?_, ?_, find_next_dir_lt p i hi, rfl⟩
  · intro h
    exact ⟨Nat.pos_of_ne_zero h, find_next_dir_lt p i hi, find_next_dir_sep p i h⟩
  · intro j _ hj2 hj3
    exact find_next_dir_ge_of_sep p i j hj2 hj3
  · intro hnone
    by_contra h
    exact hnone _ (Nat.pos_of_ne_zero h) (find_next_dir_lt p i hi) (find_next_dir_sep p i h)

/-- Witness for C7: in "/a/b", scanning from index 4 finds the separator at 2. -/
theorem find_next_dir_largest_separator_witness :
    0 < 4 ∧ find_next_dir (cstr [47, 97, 47, 98]) 4 = 2 ∧
    (∀ j, 0 < j → j < 4 → cstr [47, 97, 47, 98] j = PATH_SEP →
      j ≤ find_next_dir (cstr [47, 97, 47, 98]) 4) :=
  ⟨by decide, by decide,
    (find_next_dir_largest_separator (cstr [47, 97, 47, 98]) 4 (by decide)).2.1⟩

theorem sep_count_of_none (m : Mem) (r d : Nat)
    (h : ∀ j, r < j → j < r + 1 + d → m j ≠ PATH_SEP) :
    sep_count m (r + 1 + d) = sep_count m (r + 1) := by
  induction d with
  | zero => rfl
  | succ d ih =>
    have h1 : m (r + 1 + d) ≠ PATH_SEP := h _ (by omega) (by omega)
    have h2 := ih (fun j hj1 hj2 => h j hj1 (by omega))
    show sep_count m (r + 1 + d) + _ = _
    simp [h1, h2]

theorem sep_count_step (m : Mem) (i : Nat) (hi : 0 < i) :
    sep_count m i =
      if find_next_dir m i = 0 then 0 else sep_count m (find_next_dir m i) + 1 := by
  have hlt := find_next_dir_lt m i hi
  obtain ⟨d, hd⟩ : ∃ d, i = find_next_dir m i + 1 + d := ⟨i - (find_next_dir m i + 1), by omega⟩
  have hnone : ∀ j, find_next_dir m i < j → j < find_next_dir m i + 1 + d → m j ≠ PATH_SEP := by
    intro j h1 h2
    exact find_next_dir_none_between m i j h1 (by omega)
  have key := sep_count_of_none m (find_next_dir m i) d hnone
  rw [← hd] at key
  rw [key]
  by_cases h0 : find_next_dir m i = 0
  · simp [h0, sep_count]
  · have hs := find_next_dir_sep m i h0
    have hp : 0 < find_next_dir m i := Nat.pos_of_ne_zero h0
    simp [h0, sep_count, hs, hp]

theorem find_next_dir_iterate (m : Mem) (i : Nat) (hi : 0 < i) :
    (find_next_dir m)^[sep_count m i + 1] i = 0 ∧
    ∀ t, t ≤ sep_count m i → (find_next_dir m)^[t] i ≠ 0 := by
  induction i using Nat.strong_induction_on with
  | _ i ih =>
    have hstep := sep_count_step m i hi
    by_cases h0 : find_next_dir m i = 0
    · rw [if_pos h0] at hstep
      rw [hstep]
      refine ⟨by simp [h0], ?_⟩
      intro t ht
      have : t = 0 := by omega
      subst this
      simp only [Function.iterate_zero, id_eq]
      omega
    · rw [if_neg h0] at hstep
      rw [hstep]
      have hrec := ih (find_next_dir m i) (find_next_dir_lt m i hi) (Nat.pos_of_ne_zero h0)
      refine ⟨?_, ?_⟩
      · rw [Function.iterate_succ_apply]
        exact hrec.1
      · intro t ht
        cases t with
        | zero =>
          simp only [Function.iterate_zero, id_eq]
          omega
        | succ t =>
          rw [Function.iterate_succ_apply]
          exact hrec.2 t (by omega)

theorem bytes_succ (m : Mem) (n : Nat) : bytes m (n + 1) = bytes m n ++ [m n] := by
  simp [bytes, List.range_succ]

theorem sep_count_eq_count (m : Mem) (n : Nat) :
    sep_count m n = (bytes m n).tail.count PATH_SEP := by
  induction n with
  | zero => rfl
  | succ n ih =>
    rw [bytes_succ]
    show sep_count m n + _ = _
    cases n with
    | zero => simp [bytes, sep_count]
    | succ n =>
      have hne : bytes m (n + 1) ≠ [] := by
        intro h
        have := congrArg List.length h
        simp [bytes_length] at this
      rw [List.tail_append_of_ne_nil hne, List.count_append, ih]
      by_cases hs : m (n + 1) = PATH_SEP
      · simp [hs]
      · have hs2 : ¬ (PATH_SEP = m (n + 1)) := fun h => hs h.symm
        simp [hs, List.count_cons, hs2]

theorem sep_count_cstr (p : List Nat) :
    sep_count (cstr p) p.length = p.tail.count PATH_SEP := by
  rw [sep_count_eq_count, bytes_cstr]

/-- C8 (counterexample). The relative path "a/b" holds exactly one
separator, yet one application of `find_next_dir` from its length 3 gives 1,
not 0; position 0 is reached only by the second application. -/
theorem find_next_dir_relative_path_needs_more :
    [97, 47, 98].count PATH_SEP = 1 ∧
    (find_next_dir (cstr [97, 47, 98]))^[1] [97, 47, 98].length = 1 ∧
    (find_next_dir (cstr [97, 47, 98]))^[1] [97, 47, 98].length ≠ 0 ∧
    (find_next_dir (cstr [97, 47, 98]))^[2] [97, 47, 98].length = 0 := by
  decide

/-- C8 (amended). For every path `p` that is empty or begins with the
separator, and every `k`: if `p` holds exactly `k` separators then applying
`find_next_dir` repeatedly from index `length p` reaches position 0 after
exactly `k` applications and not before, and one more application gives 0
again. -/
theorem find_next_dir_reaches_zero (p : List Nat) (k : Nat)
    (hp : p = [] ∨ p.head? = some PATH_SEP) (hk : p.count PATH_SEP = k) :
    (find_next_dir (cstr p))^[k] p.length = 0 ∧
    (∀ t, t < k → (find_next_dir (cstr p))^[t] p.length ≠ 0) ∧
    find_next_dir (cstr p) ((find_next_dir (cstr p))^[k] p.length) = 0 := by
  cases p with
  | nil =>
    have hk0 : k = 0 := by simpa using hk.symm
    subst hk0
    refine ⟨rfl, ?_, rfl⟩
    intro t ht
    omega
  | cons a rest =>
    have ha : a = PATH_SEP := by
      rcases hp with h | h
      · exact absurd h (List.cons_ne_nil _ _)
      · simpa using h
    subst ha
    have hcount : k = sep_count (cstr (PATH_SEP :: rest)) (PATH_SEP :: rest).length + 1 := by
      rw [sep_count_cstr, ← hk]
      simp
    have hpos : 0 < (PATH_SEP :: rest).length := by simp
    have h := find_next_dir_iterate (cstr (PATH_SEP :: rest)) _ hpos
    rw [hcount]
    refine ⟨h.1, ?_, ?_⟩
    · intro t ht
      exact h.2 t (by omega)
    · rw [h.1]
      rfl

/-- Witness for C8: "/a/b" holds two separators and is walked 4, 2, 0. -/
theorem find_next_dir_reaches_zero_witness :
    [47, 97, 47, 98].count PATH_SEP = 2 ∧
    (find_next_dir (cstr [47, 97, 47, 98]))^[2] [47, 97, 47, 98].length = 0 ∧
    (∀ t, t < 2 → (find_next_dir (cstr [47, 97, 47, 98]))^[t] [47, 97, 47, 98].length ≠ 0) :=
  ⟨by decide,
    (find_next_dir_reaches_zero [47, 97, 47, 98] 2 (Or.inr (by decide)) (by decide)).1,
    (find_next_dir_reaches_zero [47, 97, 47, 98] 2 (Or.inr (by decide)) (by decide)).2.1⟩

/-! ## The HEAD parser: verified properties -/

theorem cstr_append_left (l1 l2 : List Nat) (i : Nat) (h : i < l1.length) :
    cstr (l1 ++ l2) i = cstr l1 i := by
  rw [cstr_lt l1 i h, cstr_lt (l1 ++ l2) i (by simp; omega)]
  exact List.getElem_append_left h

theorem cstr_append_right (l1 l2 : List Nat) (t : Nat) :
    cstr (l1 ++ l2) (l1.length + t) = cstr l2 t := by
  simp [cstr, List.getD_eq_getElem?_getD, List.getElem?_append_right]

theorem strncmp_eq_of_agree (s1 s2 : Mem) (n i : Nat)
    (h : ∀ j, j < n → s1 (i + j) = s2 (i + j)) : strncmp_eq s1 s2 n i = true := by
  induction n generalizing i with
  | zero => rfl
  | succ n ih =>
    have h0 : s1 i = s2 i := by simpa using h 0 (by omega)
    have hrec : strncmp_eq s1 s2 n (i + 1) = true := by
      apply ih
      intro j hj
      have := h (j + 1) (by omega)
      rw [show i + 1 + j = i + (j + 1) by omega]
      exact this
    simp only [strncmp_eq, h0, ne_eq, not_true_eq_false, if_false, hrec]
    split <;> rfl

theorem branch_copy_loop_spec (info : Mem) (pfx bound : Nat) (hb : bound < UINT_MOD)
    (hp : pfx + bound < SIZE_MOD) (fuel i : Nat) (dst : StringBuffer)
    (hi : i ≤ bound) (hfuel : bound - i < fuel) (hc : dst.cur + (bound - i) < SIZE_MOD) :
    ∃ g, branch_copy_loop info pfx bound fuel i dst = some g ∧
      g.cur = dst.cur + (bound - i) ∧
      (∀ j, j < dst.cur → g.val j = dst.val j) ∧
      (∀ t, t < bound - i → g.val (dst.cur + t) = info (pfx + i + t)) := by
  induction fuel generalizing i dst with
  | zero => omega
  | succ fuel ih =>
    by_cases hlt : i < bound
    · have hi1 : (i + 1) % UINT_MOD = i + 1 := Nat.mod_eq_of_lt (by omega)
      have hc1 : size_add dst.cur 1 = dst.cur + 1 := size_add_eq (by omega)
      have hp1 : size_add pfx i = pfx + i := size_add_eq (by omega)
      obtain ⟨g, hg, hcur, hlow, hcopy⟩ := ih (i + 1)
        ⟨dst.cur + 1, mem_write dst.val dst.cur (info (pfx + i))⟩ (by omega) (by omega)
        (by show dst.cur + 1 + (bound - (i + 1)) < SIZE_MOD; omega)
      refine ⟨g, ?_, ?_, ?_, ?_⟩
      · simp only [branch_copy_loop, hlt, if_true, hi1, hc1, hp1]
        exact hg
      · rw [hcur]
        show dst.cur + 1 + (bound - (i + 1)) = _
        omega
      · intro j hj
        rw [hlow j (by show j < dst.cur + 1; omega)]
        have : j ≠ dst.cur := by omega
        simp [mem_write, this]
      · intro t ht
        cases t with
        | zero =>
          show g.val dst.cur = info (pfx + i)
          rw [hlow dst.cur (by show dst.cur < dst.cur + 1; omega)]
          simp [mem_write]
        | succ t =>
          have := hcopy t (by omega)
          rw [show dst.cur + (t + 1) = dst.cur + 1 + t by omega,
            show pfx + i + (t + 1) = pfx + (i + 1) + t by omega]
          exact this
    · have hib : bound - i = 0 := by omega
      refine ⟨dst, ?_, by omega, fun _ _ => rfl, ?_⟩
      · simp [branch_copy_loop, hlt]
      · intro t ht
        omega

theorem std_prefix_size_eq : strnlen (cstr STD_PREFIX) MAX_LINE_SIZE = 16 := by
  rw [strnlen_cstr _ _ (by decide) (by decide)]
  decide

/-- C4. For every branch name `b` such that the HEAD file "ref: refs/heads/",
`b`, line feed is shorter than 1024 bytes, the HEAD parser (given enough fuel
for its copy loop) passes to `add_row_to_prompt` a row of `11 + length b`
bytes, which are "On branch: " followed by exactly `b`: the prefix of the
file is removed and its line feed is not included. -/
theorem parse_head_branch (b : List Nat) (stack : Mem) (fuel : Nat)
    (hlen : (STD_PREFIX ++ b ++ [10]).length < MAX_LINE_SIZE) (hfuel : b.length < fuel) :
    ∃ row, parse_head fuel stack (branch_info_after_read stack (STD_PREFIX ++ b ++ [10]))
        (STD_PREFIX ++ b ++ [10]).length = some (row, ON_BRANCH_LABEL.length + b.length) ∧
      bytes row (ON_BRANCH_LABEL.length + b.length) = ON_BRANCH_LABEL ++ b := by
  have hL : (STD_PREFIX ++ b ++ [10]).length = 17 + b.length := by
    simp [STD_PREFIX]
    omega
  have hb : b.length < 1007 := by
    simp only [hL, MAX_LINE_SIZE] at hlen
    omega
  have hinfo : ∀ j, j < 17 + b.length →
      mem_write (branch_info_after_read stack (STD_PREFIX ++ b ++ [10])) (17 + b.length) 0 j
        = cstr (STD_PREFIX ++ b ++ [10]) j := by
    intro j hj
    have h1 : j ≠ 17 + b.length := by omega
    have h2 : j < (STD_PREFIX ++ b ++ [10]).length := by omega
    simp only [mem_write, h1, if_false, branch_info_after_read, h2, if_true]
    rfl
  have hcmp : strncmp_eq
      (mem_write (branch_info_after_read stack (STD_PREFIX ++ b ++ [10])) (17 + b.length) 0)
      (cstr STD_PREFIX) 16 0 = true := by
    apply strncmp_eq_of_agree
    intro j hj
    rw [Nat.zero_add, hinfo j (by omega), List.append_assoc]
    exact cstr_append_left STD_PREFIX _ j hj
  have hsize : size_sub (size_sub (17 + b.length) 16) 1 = b.length := by
    simp only [size_sub, SIZE_MOD]
    omega
  obtain ⟨g, hg, hcur, hlow, hcopy⟩ := branch_copy_loop_spec
    (mem_write (branch_info_after_read stack (STD_PREFIX ++ b ++ [10])) (17 + b.length) 0)
    16 b.length (by simp only [UINT_MOD]; omega) (by simp only [SIZE_MOD]; omega) fuel 0
    ⟨11, cstr ON_BRANCH_LABEL⟩ (Nat.zero_le _) (by omega)
    (by show 11 + (b.length - 0) < SIZE_MOD; simp only [SIZE_MOD]; omega)
  refine ⟨g.val, ?_, ?_⟩
  · unfold parse_head terminate_branch_info
    rw [hL, std_prefix_size_eq]
    simp only [hcmp, if_true, hsize, hg]
    rw [hcur]
    rfl
  · have h11 : ON_BRANCH_LABEL.length = 11 := rfl
    have e1 : bytes g.val 11 = ON_BRANCH_LABEL := by
      rw [← bytes_cstr ON_BRANCH_LABEL]
      apply bytes_congr
      intro j hj
      exact hlow j hj
    have e2 : bytes (offset g.val 11) b.length = b := by
      refine (bytes_congr ?_).trans (bytes_cstr b)
      intro t ht
      have h := hcopy t (by omega)
      simp only [Nat.add_zero] at h
      show g.val (11 + t) = cstr b t
      rw [h, hinfo (16 + t) (by omega)]
      rw [show STD_PREFIX ++ b ++ [10] = STD_PREFIX ++ (b ++ [10]) by simp]
      have h16 : STD_PREFIX.length = 16 := rfl
      rw [← h16, cstr_append_right, cstr_append_left b [10] t ht]
    rw [h11, bytes_add, e1, e2]

/-- Witness for C4: the HEAD file "ref: refs/heads/main" with its line feed gives
the 15-byte row "On branch: main" (the branch is the 4 characters "main"). -/
theorem parse_head_branch_witness :
    (STD_PREFIX ++ MAIN_BRANCH ++ [10]).length < MAX_LINE_SIZE ∧ MAIN_BRANCH.length < 5 ∧
    ∃ row, parse_head 5 (fun _ => 0)
        (branch_info_after_read (fun _ => 0) (STD_PREFIX ++ MAIN_BRANCH ++ [10]))
        (STD_PREFIX ++ MAIN_BRANCH ++ [10]).length
          = some (row, ON_BRANCH_LABEL.length + MAIN_BRANCH.length) ∧
      bytes row (ON_BRANCH_LABEL.length + MAIN_BRANCH.length) = ON_BRANCH_LABEL ++ MAIN_BRANCH :=
  ⟨by decide, by decide, parse_head_branch MAIN_BRANCH (fun _ => 0) 5 (by decide) (by decide)⟩

/-- C5 (defect in the code). For the HEAD file holding 40 hexadecimal digits
and a line feed, the parser copies the first 6 characters and a terminator
into the 7-byte array `detached_sha` and passes the whole array, with
`row_size = 7`, to `add_row_to_prompt`: the row is the 6 characters "012345"
followed by a NUL byte, not the 6 characters alone, and the accumulator gets
the NUL between them and the line feed. -/
theorem parse_head_detached_row_has_nul :
    (parse_head 0 (fun _ => 0) (branch_info_after_read (fun _ => 0) DETACHED_HEAD)
        DETACHED_HEAD.length).map (fun row => (row.2, bytes row.1 row.2))
      = some (7, [48, 49, 50, 51, 52, 53, 0]) ∧
    (match parse_head 0 (fun _ => 0) (branch_info_after_read (fun _ => 0) DETACHED_HEAD)
        DETACHED_HEAD.length with
      | some row => (add_row_to_prompt StringBuffer.zero row.1 row.2).text
      | none => [])
      = ROW_PREFIX ++ [48, 49, 50, 51, 52, 53, 0, 10] := by
  decide

/-! ## Absolute paths -/

theorem abs_path_append (segs : List (List Nat)) (s : List Nat) :
    abs_path (segs ++ [s]) = abs_path segs ++ PATH_SEP :: s := by
  simp [abs_path]

theorem abs_path_nul_free (segs : List (List Nat)) (h : ∀ x ∈ segs, IsSegment x) :
    NulFree (abs_path segs) := by
  intro x hx
  simp only [abs_path, List.mem_flatten, List.mem_map] at hx
  obtain ⟨l, ⟨seg, hseg, rfl⟩, hx⟩ := hx
  rcases List.mem_cons.mp hx with h1 | h1
  · rw [h1]
    decide
  · exact (h seg hseg).2.2 x h1

theorem abs_path_count (segs : List (List Nat)) (h : ∀ x ∈ segs, IsSegment x) :
    (abs_path segs).count PATH_SEP = segs.length := by
  induction segs with
  | nil => rfl
  | cons seg rest ih =>
    have h1 : (abs_path (seg :: rest)) = PATH_SEP :: (seg ++ abs_path rest) := by
      simp [abs_path]
    have h2 : seg.count PATH_SEP = 0 :=
      List.count_eq_zero.mpr (h seg (List.mem_cons_self _ _)).2.1
    rw [h1, List.count_cons_self, List.count_append, h2,
      ih (fun x hx => h x (List.mem_cons_of_mem _ hx))]
    simp

theorem offset_offset (m : Mem) (a b : Nat) : offset (offset m a) b = offset m (a + b) := by
  funext i
  simp [offset, Nat.add_assoc]

theorem offset_cstr_append (l1 l2 : List Nat) : offset (cstr (l1 ++ l2)) l1.length = cstr l2 := by
  funext t
  exact cstr_append_right l1 l2 t

theorem offset_past_separator (P s : List Nat) :
    offset (cstr (P ++ PATH_SEP :: s)) (P.length + 1) = cstr s := by
  have h := offset_cstr_append (P ++ [PATH_SEP]) s
  simpa using h

/-- Scanning back from the end of `P ++ "/" ++ s`, where `s` holds no
separator, stops at the length of `P`. -/
theorem find_next_dir_last_segment (m : Mem) (P s : List Nat) (hs : PATH_SEP ∉ s)
    (hm : ∀ j, j < P.length + 1 + s.length → m j = cstr (P ++ PATH_SEP :: s) j) :
    find_next_dir m (P.length + 1 + s.length) = P.length := by
  have hle : find_next_dir m (P.length + 1 + s.length) ≤ P.length := by
    by_contra hgt
    have hne : find_next_dir m (P.length + 1 + s.length) ≠ 0 := by omega
    have hlt := find_next_dir_lt m (P.length + 1 + s.length) (by omega)
    have hsep := find_next_dir_sep m (P.length + 1 + s.length) hne
    obtain ⟨t, ht⟩ : ∃ t, find_next_dir m (P.length + 1 + s.length) = P.length + 1 + t :=
      ⟨find_next_dir m (P.length + 1 + s.length) - (P.length + 1), by omega⟩
    rw [hm _ hlt, ht] at hsep
    have hval : cstr (P ++ PATH_SEP :: s) (P.length + 1 + t) = cstr s t := by
      have := congrFun (offset_past_separator P s) t
      simpa [offset] using this
    rw [hval, cstr_lt s t (by omega)] at hsep
    exact hs (hsep ▸ List.getElem_mem _)
  have hge : P.length ≤ find_next_dir m (P.length + 1 + s.length) := by
    apply find_next_dir_ge_of_sep m _ P.length (by omega)
    rw [hm _ (by omega)]
    have := cstr_append_right P (PATH_SEP :: s) 0
    simpa [cstr] using this
  omega

theorem count_directories_eq (cwd : Mem) (fuel i cnt : Nat) (hfuel : i < fuel)
    (hcnt : cnt + i < SIZE_MOD) :
    count_directories cwd fuel i cnt
      = some (cnt + if i = 0 then 0 else sep_count cwd i + 1) := by
  induction fuel generalizing i cnt with
  | zero => omega
  | succ fuel ih =>
    by_cases hi : i = 0
    · simp [count_directories, hi]
    · have hpos : 0 < i := Nat.pos_of_ne_zero hi
      have hlt := find_next_dir_lt cwd i hpos
      have hc1 : size_add cnt 1 = cnt + 1 := size_add_eq (by omega)
      have hrec := ih (find_next_dir cwd i) (cnt + 1) (by omega) (by omega)
      have hstep := sep_count_step cwd i hpos
      simp only [count_directories, hpos, if_true, hc1, hrec, hi, if_false, hstep]
      by_cases h0 : find_next_dir cwd i = 0
      · simp [h0]
      · simp only [h0, if_false]
        congr 1
        omega

theorem count_directories_abs_path (segs : List (List Nat)) (fuel : Nat)
    (h : ∀ x ∈ segs, IsSegment x) (hlen : (abs_path segs).length ≤ MAX_LINE_SIZE)
    (hfuel : (abs_path segs).length < fuel) :
    count_directories (cstr (abs_path segs)) fuel
      (strnlen (cstr (abs_path segs)) MAX_LINE_SIZE) 0 = some segs.length := by
  rw [strnlen_cstr _ _ (abs_path_nul_free segs h) hlen]
  rw [count_directories_eq _ _ _ _ hfuel (by simp only [MAX_LINE_SIZE, SIZE_MOD] at *; omega)]
  cases segs with
  | nil => rfl
  | cons seg rest =>
    have hc := abs_path_count (seg :: rest) h
    have hne : (abs_path (seg :: rest)).length ≠ 0 := by simp [abs_path]
    have hshape : abs_path (seg :: rest) = PATH_SEP :: (seg ++ abs_path rest) := by
      simp [abs_path]
    rw [if_neg hne, sep_count_cstr, Nat.zero_add]
    rw [hshape, List.count_cons_self] at hc
    rw [hshape, List.tail_cons]
    exact congrArg some hc

theorem strnlen_abs_path (segs : List (List Nat)) (h : ∀ x ∈ segs, IsSegment x)
    (hlen : (abs_path segs).length ≤ MAX_LINE_SIZE) :
    strnlen (cstr (abs_path segs)) MAX_LINE_SIZE = (abs_path segs).length :=
  strnlen_cstr _ _ (abs_path_nul_free segs h) hlen

theorem abs_path_append_length (segs : List (List Nat)) (s : List Nat) :
    (abs_path (segs ++ [s])).length = (abs_path segs).length + 1 + s.length := by
  rw [abs_path_append]
  simp
  omega

theorem find_next_dir_abs_path (segs : List (List Nat)) (s : List Nat) (hs : IsSegment s) :
    find_next_dir (cstr (abs_path (segs ++ [s]))) (abs_path (segs ++ [s])).length
      = (abs_path segs).length := by
  rw [abs_path_append_length, abs_path_append]
  exact find_next_dir_last_segment _ _ s hs.2.1 (fun _ _ => rfl)

theorem offset_abs_path (segs : List (List Nat)) (s : List Nat) :
    offset (cstr (abs_path (segs ++ [s]))) ((abs_path segs).length + 1) = cstr s := by
  rw [abs_path_append]
  exact offset_past_separator _ s

theorem all_segments_append {segs : List (List Nat)} {s : List Nat}
    (hsegs : ∀ x ∈ segs, IsSegment x) (hs : IsSegment s) : ∀ x ∈ segs ++ [s], IsSegment x := by
  intro x hx
  rcases List.mem_append.mp hx with h | h
  · exact hsegs x h
  · rw [List.mem_singleton.mp h]
    exact hs

/-! ## The long-path probe: verified properties -/

theorem long_cwd_row_eq (segs : List (List Nat)) (s : List Nat)
    (hsegs : ∀ x ∈ segs, IsSegment x) (hs : IsSegment s)
    (hlen : (abs_path (segs ++ [s])).length < MAX_LINE_SIZE) :
    long_cwd_row (cstr (abs_path (segs ++ [s])))
      = sb_append ⟨5, cstr PWD_LABEL⟩ (cstr s) s.length := by
  have hall := all_segments_append hsegs hs
  have hL := abs_path_append_length segs s
  have hadd : size_add (abs_path segs).length 1 = (abs_path segs).length + 1 := by
    apply size_add_eq
    simp only [MAX_LINE_SIZE, SIZE_MOD] at *
    omega
  have hs_len : strnlen (cstr s) MAX_LINE_SIZE = s.length :=
    strnlen_cstr _ _ hs.2.2 (by omega)
  unfold long_cwd_row
  simp only [strnlen_abs_path _ hall (le_of_lt hlen), find_next_dir_abs_path segs s hs, hadd,
    offset_offset, offset_abs_path, hs_len]

/-- C10 (defect in the code). For the working directory "/a/b/c/d/e/f"
the row built by `add_long_cwd` is "pwd: f", not "pwd: b/c/d/e/f": lines 136
and 137 repeat lines 303 and 304 of `add_local_host_and_dir`, so the index
found by `find_next_dir` from the end of the path is that of its last
separator and the row labelled as the working directory shows only its final
segment, which the row above it already shows. -/
theorem long_cwd_row_of_deep_cwd :
    (long_cwd_row (cstr DEEP_CWD)).text = PWD_LABEL ++ [102] ∧
    (long_cwd_row (cstr DEEP_CWD)).text ≠ PWD_LABEL ++ [98, 47, 99, 47, 100, 47, 101, 47, 102] ∧
    (add_long_cwd 13 StringBuffer.zero (cstr DEEP_CWD)).map StringBuffer.text
      = some (ROW_PREFIX ++ (PWD_LABEL ++ [102]) ++ [10]) := by
  decide

/-- Extent of the defect of `add_long_cwd`: for every absolute working
directory "/s1/.../sn" with 5 or more segments and fewer than 1024 bytes
whose row fits the line and the accumulator, the code as written (with fuel
above the length of the path) appends one row whose fragment is "pwd: "
followed by the final segment `sn` alone, never by the path "s2/.../sn". -/
theorem add_long_cwd_shows_final_segment (segs : List (List Nat)) (s : List Nat)
    (buffer : StringBuffer) (fuel : Nat)
    (hsegs : ∀ x ∈ segs, IsSegment x) (hs : IsSegment s) (hn : 5 ≤ (segs ++ [s]).length)
    (hlen : (abs_path (segs ++ [s])).length < MAX_LINE_SIZE)
    (hfuel : (abs_path (segs ++ [s])).length < fuel)
    (hline : (PWD_LABEL ++ s).length + 15 < MAX_LINE_SIZE)
    (hroom : buffer.cur + (PWD_LABEL ++ s).length + 15 < BUF_SIZE) :
    (long_cwd_row (cstr (abs_path (segs ++ [s])))).text = PWD_LABEL ++ s ∧
    ∃ out, add_long_cwd fuel buffer (cstr (abs_path (segs ++ [s]))) = some out ∧
      out.text = buffer.text ++ ROW_PREFIX ++ (PWD_LABEL ++ s) ++ [10] := by
  have hall := all_segments_append hsegs hs
  have hL := abs_path_append_length segs s
  have hrow := long_cwd_row_eq segs s hsegs hs hlen
  have h5 : (PWD_LABEL ++ s).length = 5 + s.length := by
    rw [List.length_append]
    rfl
  have hfit : (⟨5, cstr PWD_LABEL⟩ : StringBuffer).cur + s.length < BUF_SIZE := by
    show 5 + s.length < BUF_SIZE
    simp only [MAX_LINE_SIZE, BUF_SIZE] at *
    omega
  have htext : (long_cwd_row (cstr (abs_path (segs ++ [s])))).text = PWD_LABEL ++ s := by
    rw [hrow, sb_append_text _ _ _ hfit, bytes_cstr]
    show bytes (cstr PWD_LABEL) PWD_LABEL.length ++ s = _
    rw [bytes_cstr]
  have hcur : (long_cwd_row (cstr (abs_path (segs ++ [s])))).cur = 5 + s.length := by
    rw [hrow, sb_append_fits _ _ _ hfit]
  refine ⟨htext, ?_⟩
  refine ⟨add_row_to_prompt buffer (long_cwd_row (cstr (abs_path (segs ++ [s])))).val
    (long_cwd_row (cstr (abs_path (segs ++ [s])))).cur, ?_, ?_⟩
  · unfold add_long_cwd
    rw [count_directories_abs_path _ fuel hall (le_of_lt hlen) hfuel]
    simp only [ge_iff_le, hn, if_true]
  · rw [add_row_to_prompt_text _ _ _ (by rw [hcur]; omega) (by rw [hcur]; omega)]
    show _ ++ (long_cwd_row (cstr (abs_path (segs ++ [s])))).text ++ _ = _
    rw [htext]

/-- Instance of `add_long_cwd_shows_final_segment`: "/a/b/c/d/e/f" appended
to the empty accumulator. -/
theorem add_long_cwd_shows_final_segment_witness :
    (∀ x ∈ [[97], [98], [99], [100], [101]], IsSegment x) ∧ IsSegment [102] ∧
    abs_path ([[97], [98], [99], [100], [101]] ++ [[102]]) = DEEP_CWD ∧
    ∃ out, add_long_cwd 13 StringBuffer.zero
        (cstr (abs_path ([[97], [98], [99], [100], [101]] ++ [[102]]))) = some out ∧
      out.text = StringBuffer.zero.text ++ ROW_PREFIX ++ (PWD_LABEL ++ [102]) ++ [10] :=
  ⟨by decide, by decide, by decide,
    (add_long_cwd_shows_final_segment [[97], [98], [99], [100], [101]] [102]
      StringBuffer.zero 13 (by decide) (by decide) (by decide) (by decide) (by decide)
      (by decide) (by decide)).2⟩

/-! ## The git locator: verified properties -/

theorem probe_order_nil : probe_order [] = [] := rfl

theorem probe_order_append (pre : List (List Nat)) (s : List Nat) :
    probe_order (pre ++ [s]) = abs_path (pre ++ [s]) :: probe_order pre := by
  have hne : pre.inits.reverse ≠ [] := by
    intro h
    have := congrArg List.length h
    simp [List.length_inits] at this
  unfold probe_order
  rw [List.inits_append]
  simp only [List.inits, List.tail_cons, List.map_cons, List.map_nil, List.reverse_append,
    List.reverse_cons, List.reverse_nil, List.nil_append, List.singleton_append]
  rw [List.dropLast_cons_of_ne_nil hne, List.map_cons]

theorem abs_path_concat (pre post : List (List Nat)) :
    abs_path (pre ++ post) = abs_path pre ++ abs_path post := by
  simp [abs_path]

theorem probed_append (log1 log2 : List Event) :
    probed (log1 ++ log2) = probed log1 ++ probed log2 := by
  simp [probed, List.filterMap_append]

theorem root_not_in_probe_order (segs : List (List Nat)) (h : ∀ x ∈ segs, IsSegment x) :
    [PATH_SEP] ∉ probe_order segs := by
  induction segs using List.reverseRecOn with
  | nil => simp [probe_order_nil]
  | append_singleton pre s ih =>
    rw [probe_order_append]
    intro hmem
    rcases List.mem_cons.mp hmem with h1 | h1
    · have hs : s ≠ [] := (h s (by simp)).1
      have hlen := congrArg List.length h1
      rw [abs_path_append_length] at hlen
      have : 0 < s.length := List.length_pos.mpr hs
      simp at hlen
      omega
    · exact ih (fun x hx => h x (List.mem_append_left _ hx)) h1

theorem snprintf_s_spec (dst : Mem) (size : Nat) (src : Mem) (n : Nat) (hsize : 0 < size)
    (hn : strnlen src (size - 1) = n) :
    (∀ j, j < n → snprintf_s dst size src j = src j) ∧ snprintf_s dst size src n = 0 := by
  have h0 : size ≠ 0 := by omega
  refine ⟨?_, ?_⟩
  · intro j hj
    simp [snprintf_s, h0, hn, hj]
  · simp [snprintf_s, h0, hn]

theorem add_git_info_walk_absent (fs : FileSystem) (copy_fuel : Nat) (pre : List (List Nat)) :
    ∀ (post : List (List Nat)) (fuel : Nat) (dirname : Mem) (log : List Event),
      (∀ x ∈ pre ++ post, IsSegment x) →
      (abs_path (pre ++ post)).length < MAX_LINE_SIZE →
      (∀ d ∈ probe_order pre, ∃ entries, fs.opendir d = some entries ∧
        exists_entry entries DOT_GIT DT_DIR = false ∧ fs.closedir d = true) →
      pre.length < fuel →
      (∀ j, j < (abs_path pre).length → dirname j = cstr (abs_path (pre ++ post)) j) →
      dirname (abs_path pre).length = 0 →
      ∃ r, add_git_info_walk fs (cstr (abs_path (pre ++ post))) copy_fuel fuel
          (abs_path pre).length dirname log = some r ∧
        r.row = none ∧ probed r.log = probed log ++ probe_order pre := by
  induction pre using List.reverseRecOn with
  | nil =>
    intro post fuel dirname log _ _ _ hfuel _ _
    obtain ⟨f, rfl⟩ : ∃ f, fuel = f + 1 := ⟨fuel - 1, by simp at hfuel; omega⟩
    refine ⟨⟨log, none⟩, ?_, rfl, ?_⟩
    · simp [add_git_info_walk, abs_path]
    · simp [probe_order_nil]
  | append_singleton pre s ih =>
    intro post fuel dirname log hseg hlen hfs hfuel hagree hnul
    obtain ⟨f, rfl⟩ : ∃ f, fuel = f + 1 := ⟨fuel - 1, by omega⟩
    have hshape : pre ++ [s] ++ post = pre ++ s :: post := by simp
    rw [hshape] at hseg hlen hagree ⊢
    have hs : IsSegment s := hseg s (by simp)
    have hfullnf : NulFree (abs_path (pre ++ s :: post)) := abs_path_nul_free _ hseg
    have hA := abs_path_append_length pre s
    have hfull : abs_path (pre ++ s :: post) = abs_path (pre ++ [s]) ++ abs_path post := by
      rw [← hshape]
      exact abs_path_concat _ _
    have hfull_len : (abs_path (pre ++ [s])).length ≤ (abs_path (pre ++ s :: post)).length := by
      rw [hfull, List.length_append]
      omega
    -- the string held by `dirname`
    have hnz : ∀ j, j < (abs_path (pre ++ [s])).length → dirname j ≠ 0 := by
      intro j hj
      rw [hagree j hj, cstr_lt _ j (by omega)]
      exact hfullnf _ (List.getElem_mem _)
    have hstr : strnlen dirname MAX_LINE_SIZE = (abs_path (pre ++ [s])).length :=
      strnlen_eq dirname _ _ hnz (by omega) (Or.inl hnul)
    have hd : c_string dirname MAX_LINE_SIZE = abs_path (pre ++ [s]) := by
      unfold c_string
      rw [hstr]
      refine (bytes_congr ?_).trans (bytes_cstr _)
      intro j hj
      rw [hagree j hj, hfull]
      exact cstr_append_left _ _ j hj
    obtain ⟨entries, hopen, hnogit, hclose⟩ := hfs (abs_path (pre ++ [s]))
      (by rw [probe_order_append]; exact List.mem_cons_self _ _)
    -- the next index and the next contents of `dirname`
    have hnext : find_next_dir dirname (abs_path (pre ++ [s])).length = (abs_path pre).length := by
      rw [hA]
      apply find_next_dir_last_segment dirname (abs_path pre) s hs.2.1
      intro j hj
      rw [hagree j (by omega), hfull, ← abs_path_append]
      exact cstr_append_left _ _ j (by omega)
    have hadd : size_add (abs_path pre).length 1 = (abs_path pre).length + 1 := by
      apply size_add_eq
      simp only [MAX_LINE_SIZE, SIZE_MOD] at *
      omega
    have hcopy : strnlen (cstr (abs_path (pre ++ s :: post))) ((abs_path pre).length + 1 - 1)
        = (abs_path pre).length := by
      apply strnlen_eq _ _ _ _ (by omega) (Or.inr (by omega))
      intro j hj
      rw [cstr_lt _ j (by omega)]
      exact hfullnf _ (List.getElem_mem _)
    have hsn := snprintf_s_spec dirname ((abs_path pre).length + 1)
      (cstr (abs_path (pre ++ s :: post))) _ (by omega) hcopy
    have hrec := ih (s :: post) f
      (snprintf_s dirname ((abs_path pre).length + 1) (cstr (abs_path (pre ++ s :: post))))
      (log ++ [.opendir 150 (abs_path (pre ++ [s])) true,
        .closedir 221 (abs_path (pre ++ [s])) true])
      hseg hlen
      (fun d hdm => hfs d (by rw [probe_order_append]; exact List.mem_cons_of_mem _ hdm))
      (by simp at hfuel; omega) hsn.1 hsn.2
    obtain ⟨r, hr, hrow, hprobed⟩ := hrec
    refine ⟨r, ?_, hrow, ?_⟩
    · have hpos : (abs_path (pre ++ [s])).length > 0 := by omega
      simp only [add_git_info_walk, hpos, if_true, hd, hopen, hnogit, hclose, hnext, hadd]
      exact hr
    · rw [hprobed, probed_append, probe_order_append, List.append_assoc]
      rfl

/-- C6 (defect in the code). A git working tree at the root "/" is found
only when the working directory is the root itself. In a file system whose
root holds a git control directory, the walk from "/a/b" probes "/a/b" and
"/a" and ends without a row: after "/a" the index returned by
`find_next_dir` is 0, the value it also returns when there is no separator,
the loop `while (cur > 0)` ends and "/" is never probed. From the working
directory "/" the same file system gives the row "On branch: main". -/
theorem git_info_misses_repository_at_root :
    (ROOT_REPO_FS.opendir [PATH_SEP]).map (fun dir => exists_entry dir DOT_GIT DT_DIR)
      = some true ∧
    (git_info ROOT_REPO_FS 6 (cstr [47, 97, 47, 98])).map
        (fun r => (probed r.log, r.row.isSome))
      = some ([[47, 97, 47, 98], [47, 97]], false) ∧
    [PATH_SEP] ∉ [[47, 97, 47, 98], [47, 97]] ∧
    find_next_dir (cstr [47, 97]) 2 = 0 ∧
    find_next_dir (cstr [97]) 1 = 0 ∧
    (git_info ROOT_REPO_FS 6 (cstr [PATH_SEP])).map
        (fun r => (probed r.log, r.row.map (fun row => bytes row.1 row.2)))
      = some ([[PATH_SEP]], some (ON_BRANCH_LABEL ++ MAIN_BRANCH)) := by
  decide

/-- Extent of the defect of the walk: for every absolute working directory
"/s1/.../sn" (non-empty segments, length under 1024), when each of the
directories "/s1/.../sn", ..., "/s1" can be opened and closed and holds no
git control directory, the code as written (with fuel above `n`) probes
exactly these directories in this order, one level up at a time, and then
ends without a row, whatever the root "/" holds: the root is left out. -/
theorem git_info_probes_up_to_first_segment (fs : FileSystem) (segs : List (List Nat))
    (fuel : Nat) (hsegs : ∀ x ∈ segs, IsSegment x)
    (hlen : (abs_path segs).length < MAX_LINE_SIZE)
    (hfs : ∀ d ∈ probe_order segs, ∃ entries, fs.opendir d = some entries ∧
      exists_entry entries DOT_GIT DT_DIR = false ∧ fs.closedir d = true)
    (hfuel : segs.length < fuel) :
    ∃ r, git_info fs fuel (cstr (abs_path segs)) = some r ∧ r.row = none ∧
      probed r.log = probe_order segs ∧ [PATH_SEP] ∉ probed r.log := by
  have hnf : NulFree (abs_path segs) := abs_path_nul_free segs hsegs
  have h1023 : strnlen (cstr (abs_path segs)) (MAX_LINE_SIZE - 1) = (abs_path segs).length :=
    strnlen_cstr _ _ hnf (by simp only [MAX_LINE_SIZE] at *; omega)
  have hsn := snprintf_s_spec fs.stack MAX_LINE_SIZE (cstr (abs_path segs)) _ (by decide) h1023
  have hwalk := add_git_info_walk_absent fs fuel segs [] fuel
    (snprintf_s fs.stack MAX_LINE_SIZE (cstr (abs_path segs))) []
    (by simpa using hsegs) (by simpa using hlen) hfs hfuel
    (by simpa using hsn.1) hsn.2
  obtain ⟨r, hr, hrow, hprobed⟩ := hwalk
  rw [List.append_nil] at hr
  refine ⟨r, ?_, hrow, ?_, ?_⟩
  · unfold git_info
    rw [strnlen_abs_path segs hsegs (le_of_lt hlen)]
    exact hr
  · simpa [probed] using hprobed
  · rw [hprobed]
    simpa [probed] using root_not_in_probe_order segs hsegs

/-- Instance of `git_info_probes_up_to_first_segment`: the walk from "/a/b"
in the empty file system. -/
theorem git_info_probes_up_to_first_segment_witness :
    abs_path [[97], [98]] = [47, 97, 47, 98] ∧
    probe_order [[97], [98]] = [[47, 97, 47, 98], [47, 97]] ∧
    ∃ r, git_info EMPTY_FS 3 (cstr (abs_path [[97], [98]])) = some r ∧ r.row = none ∧
      probed r.log = probe_order [[97], [98]] ∧ [PATH_SEP] ∉ probed r.log :=
  ⟨by decide, by decide,
    git_info_probes_up_to_first_segment EMPTY_FS [[97], [98]] 3 (by decide) (by decide)
      (fun _ _ => ⟨[], rfl, rfl, rfl⟩) (by decide)⟩

/-! ## The program: verified properties -/

theorem strnlen_scan_le (s : Mem) (k i : Nat) : strnlen_scan s k i ≤ i + k := by
  induction k generalizing i with
  | zero => simp [strnlen_scan]
  | succ k ih =>
    simp only [strnlen_scan]
    split
    · omega
    · have := ih (i + 1)
      omega

theorem strnlen_le (s : Mem) (maxlen : Nat) : strnlen s maxlen ≤ maxlen := by
  have := strnlen_scan_le s maxlen 0
  unfold strnlen
  omega

theorem text_length (b : StringBuffer) : b.text.length = b.cur := by
  simp [StringBuffer.text, bytes_length]

theorem add_row_to_prompt_line (b : StringBuffer) (row : Mem) (n : Nat)
    (hn : n + 15 < MAX_LINE_SIZE) (hc : b.text.length + n + 15 < BUF_SIZE) :
    (add_row_to_prompt b row n).text = b.text ++ row_line (bytes row n) := by
  rw [text_length] at hc
  rw [add_row_to_prompt_text b row n hn hc]
  simp [row_line]

theorem count_directories_segment_count (cwd : Mem) (fuel : Nat) (hfuel : MAX_LINE_SIZE < fuel) :
    count_directories cwd fuel (strnlen cwd MAX_LINE_SIZE) 0 = some (segment_count cwd) := by
  have hle := strnlen_le cwd MAX_LINE_SIZE
  rw [count_directories_eq _ _ _ _ (by omega) (by simp only [MAX_LINE_SIZE, SIZE_MOD] at *; omega)]
  simp [segment_count]

theorem segment_count_abs_path (segs : List (List Nat)) (h : ∀ x ∈ segs, IsSegment x)
    (hlen : (abs_path segs).length ≤ MAX_LINE_SIZE) :
    segment_count (cstr (abs_path segs)) = segs.length := by
  have h1 := count_directories_abs_path segs (MAX_LINE_SIZE + 1) h hlen (by omega)
  rw [count_directories_segment_count _ _ (by omega)] at h1
  exact Option.some.inj h1

theorem add_footers_text (b : StringBuffer) (hroom : b.text.length + 131 + 5 < BUF_SIZE) :
    (add_prompt_char (add_bottom_row b)).text = b.text ++ BOTTOM_ROW ++ PROMPT_CHARS := by
  rw [text_length] at hroom
  have h1 : (add_bottom_row b).text = b.text ++ BOTTOM_ROW := by
    unfold add_bottom_row
    rw [bottom_row_size_eq, sb_append_text _ _ _ (by omega)]
    have := bytes_cstr BOTTOM_ROW
    rw [bottom_row_length] at this
    rw [this]
  have h2 : (add_bottom_row b).cur = b.cur + 131 := by
    unfold add_bottom_row
    rw [bottom_row_size_eq, sb_append_fits _ _ _ (by omega)]
  unfold add_prompt_char
  rw [prompt_chars_size_eq, sb_append_text _ _ _ (by rw [h2]; omega), h1]
  have : bytes (cstr PROMPT_CHARS) 5 = PROMPT_CHARS := bytes_cstr PROMPT_CHARS
  rw [this]

theorem final_segment_split (v : List Nat) (h : PATH_SEP ∈ v) :
    ∃ P, v = P ++ PATH_SEP :: final_segment v ∧ PATH_SEP ∉ final_segment v := by
  induction v with
  | nil => simp at h
  | cons c rest ih =>
    by_cases hr : PATH_SEP ∈ rest
    · obtain ⟨P, hP, hno⟩ := ih hr
      have hf : final_segment (c :: rest) = final_segment rest := by
        simp [final_segment, hr]
      rw [hf]
      refine ⟨c :: P, ?_, hno⟩
      rw [List.cons_append, ← hP]
    · have hc : c = PATH_SEP := by
        rcases List.mem_cons.mp h with h1 | h1
        · exact h1.symm
        · exact absurd h1 hr
      have hf : final_segment (c :: rest) = rest := by
        simp [final_segment, hr, hc]
      rw [hf, hc]
      exact ⟨[], rfl, hr⟩

theorem last_separator_facts (P s : List Nat) (hs : PATH_SEP ∉ s)
    (hnul : NulFree (P ++ PATH_SEP :: s)) (hlen : (P ++ PATH_SEP :: s).length ≤ MAX_LINE_SIZE) :
    strnlen (cstr (P ++ PATH_SEP :: s)) MAX_LINE_SIZE = P.length + 1 + s.length ∧
    find_next_dir (cstr (P ++ PATH_SEP :: s)) (P.length + 1 + s.length) = P.length ∧
    offset (cstr (P ++ PATH_SEP :: s)) (size_add P.length 1) = cstr s ∧
    strnlen (cstr s) MAX_LINE_SIZE = s.length := by
  have hL : (P ++ PATH_SEP :: s).length = P.length + 1 + s.length := by
    simp
    omega
  have hsn : NulFree s := fun x hx => hnul x (by simp [hx])
  have hadd : size_add P.length 1 = P.length + 1 := by
    apply size_add_eq
    simp only [MAX_LINE_SIZE, SIZE_MOD] at *
    omega
  refine ⟨?_, ?_, ?_, ?_⟩
  · rw [strnlen_cstr _ _ hnul hlen, hL]
  · exact find_next_dir_last_segment _ P s hs (fun _ _ => rfl)
  · rw [hadd]
    exact offset_past_separator P s
  · exact strnlen_cstr _ _ hsn (by omega)

theorem two_appends (L s : List Nat) (h : L.length + s.length < BUF_SIZE) :
    (sb_append (sb_append StringBuffer.zero (cstr L) L.length) (cstr s) s.length).text = L ++ s ∧
    (sb_append (sb_append StringBuffer.zero (cstr L) L.length) (cstr s) s.length).cur
      = L.length + s.length := by
  have h0 : StringBuffer.zero.cur = 0 := rfl
  have h1 : (sb_append StringBuffer.zero (cstr L) L.length).cur = L.length := by
    rw [sb_append_fits _ _ _ (by rw [h0]; omega)]
    show 0 + L.length = L.length
    omega
  have ht1 : (sb_append StringBuffer.zero (cstr L) L.length).text = L := by
    rw [sb_append_text _ _ _ (by rw [h0]; omega), bytes_cstr]
    rfl
  generalize sb_append StringBuffer.zero (cstr L) L.length = row at h1 ht1 ⊢
  have hfit : row.cur + s.length < BUF_SIZE := by
    rw [h1]
    exact h
  refine ⟨?_, ?_⟩
  · rw [sb_append_text _ _ _ hfit, ht1, bytes_cstr]
  · rw [sb_append_fits _ _ _ hfit]
    exact congrArg (fun c => c + s.length) h1

/-- C11. For every absolute working directory "/s1/.../sn" of `n` non-empty
segments and fewer than 1024 bytes, `add_long_cwd` (with fuel above the
length of the path) leaves the accumulator unchanged when `n < 5`, and when
`n >= 5` and the row fits the line and the accumulator it appends exactly one
row, the line built from the row buffer of `add_long_cwd`. -/
theorem add_long_cwd_fires_from_five_segments (segs : List (List Nat)) (buffer : StringBuffer)
    (fuel : Nat) (hsegs : ∀ x ∈ segs, IsSegment x)
    (hlen : (abs_path segs).length < MAX_LINE_SIZE)
    (hfuel : (abs_path segs).length < fuel)
    (hline : (long_cwd_row (cstr (abs_path segs))).cur + 15 < MAX_LINE_SIZE)
    (hroom : buffer.cur + (long_cwd_row (cstr (abs_path segs))).cur + 15 < BUF_SIZE) :
    (segs.length < 5 → add_long_cwd fuel buffer (cstr (abs_path segs)) = some buffer) ∧
    (5 ≤ segs.length →
      ∃ out, add_long_cwd fuel buffer (cstr (abs_path segs)) = some out ∧
        out.text = buffer.text ++ row_line (long_cwd_row (cstr (abs_path segs))).text) := by
  have hcount := count_directories_abs_path segs fuel hsegs (le_of_lt hlen) hfuel
  refine ⟨?_, ?_⟩
  · intro hn
    unfold add_long_cwd
    rw [hcount]
    have : ¬ (segs.length ≥ 5) := by omega
    simp only [this, if_false]
  · intro hn
    refine ⟨add_row_to_prompt buffer (long_cwd_row (cstr (abs_path segs))).val
      (long_cwd_row (cstr (abs_path segs))).cur, ?_, ?_⟩
    · unfold add_long_cwd
      rw [hcount]
      simp only [ge_iff_le, hn, if_true]
    · exact add_row_to_prompt_line buffer _ _ hline (by rw [text_length]; exact hroom)

/-- Witness for C11: "/a/b/c/d/e/f" (6 segments) gets its row, "/a/b/c"
(3 segments) leaves the accumulator unchanged. -/
theorem add_long_cwd_fires_from_five_segments_witness :
    abs_path [[97], [98], [99], [100], [101], [102]] = DEEP_CWD ∧
    abs_path [[97], [98], [99]] = SHALLOW_CWD ∧
    (∃ out, add_long_cwd 13 StringBuffer.zero
        (cstr (abs_path [[97], [98], [99], [100], [101], [102]])) = some out ∧
      out.text = StringBuffer.zero.text ++
        row_line (long_cwd_row (cstr (abs_path [[97], [98], [99], [100], [101], [102]]))).text) ∧
    add_long_cwd 7 StringBuffer.zero (cstr (abs_path [[97], [98], [99]]))
      = some StringBuffer.zero :=
  ⟨by decide, by decide,
    (add_long_cwd_fires_from_five_segments [[97], [98], [99], [100], [101], [102]]
      StringBuffer.zero 13 (by decide) (by decide) (by decide) (by decide) (by decide)).2
      (by decide),
    (add_long_cwd_fires_from_five_segments [[97], [98], [99]]
      StringBuffer.zero 7 (by decide) (by decide) (by decide) (by decide) (by decide)).1
      (by decide)⟩

theorem mem_of_head (v : List Nat) (h : v.head? = some PATH_SEP) : PATH_SEP ∈ v := by
  cases v with
  | nil => simp at h
  | cons c rest =>
    have hc : c = PATH_SEP := by simpa using h
    rw [hc]
    exact List.mem_cons_self _ _

theorem python_env_row_of_path (P s : List Nat) (hs : PATH_SEP ∉ s)
    (hnul : NulFree (P ++ PATH_SEP :: s)) (hlen : (P ++ PATH_SEP :: s).length < MAX_LINE_SIZE) :
    python_env_row (cstr (P ++ PATH_SEP :: s))
      = sb_append (sb_append StringBuffer.zero (cstr PY_ENV_LABEL) PY_ENV_LABEL.length)
          (cstr s) s.length := by
  obtain ⟨h1, h2, h3, _⟩ := last_separator_facts P s hs hnul (le_of_lt hlen)
  have h8 : strlen PY_ENV_LABEL = PY_ENV_LABEL.length := by decide
  have hL : (P ++ PATH_SEP :: s).length = P.length + 1 + s.length := by
    simp
    omega
  have hname : python_env_name_len (cstr (P ++ PATH_SEP :: s)) = s.length := by
    unfold python_env_name_len
    simp only [h1, h2, size_sub, SIZE_MOD]
    simp only [hL, MAX_LINE_SIZE] at hlen
    omega
  unfold python_env_row
  simp only [h1, h2, h3, h8, hname]

/-- C12. For every `VIRTUAL_ENV` value `v` that begins with a separator, holds
no NUL, is shorter than 1024 bytes and whose row fits the line and the
accumulator, `add_python_env` appends exactly one row whose fragment is
"Py env: " followed by the part of `v` after its last separator. When
`VIRTUAL_ENV` is unset the accumulator is unchanged. -/
theorem add_python_env_shows_final_segment (v : List Nat) (buffer : StringBuffer)
    (habs : v.head? = some PATH_SEP) (hnul : NulFree v) (hlen : v.length < MAX_LINE_SIZE)
    (hline : (PY_ENV_LABEL ++ final_segment v).length + 15 < MAX_LINE_SIZE)
    (hroom : buffer.cur + (PY_ENV_LABEL ++ final_segment v).length + 15 < BUF_SIZE) :
    (add_python_env buffer (some (cstr v))).text
      = buffer.text ++ row_line (PY_ENV_LABEL ++ final_segment v) ∧
    add_python_env buffer none = buffer := by
  refine ⟨?_, rfl⟩
  obtain ⟨P, hv, hno⟩ := final_segment_split v (mem_of_head v habs)
  generalize final_segment v = s at hv hno hline hroom ⊢
  subst hv
  rw [List.length_append] at hline hroom
  have hrow := python_env_row_of_path P s hno hnul hlen
  have hta := two_appends PY_ENV_LABEL s (by simp only [MAX_LINE_SIZE, BUF_SIZE] at *; omega)
  rw [← hrow] at hta
  have hstep := add_row_to_prompt_line buffer (python_env_row (cstr (P ++ PATH_SEP :: s))).val
    (python_env_row (cstr (P ++ PATH_SEP :: s))).cur (by rw [hta.2]; exact hline)
    (by rw [text_length, hta.2]; omega)
  show (add_row_to_prompt buffer (python_env_row (cstr (P ++ PATH_SEP :: s))).val
    (python_env_row (cstr (P ++ PATH_SEP :: s))).cur).text = _
  rw [hstep]
  show _ ++ row_line (python_env_row (cstr (P ++ PATH_SEP :: s))).text = _
  rw [hta.1]

/-- Witness for C12: for "/home/user/.venvs/myproj" the fragment is
"Py env: myproj". -/
theorem add_python_env_shows_final_segment_witness :
    final_segment VENV_PATH = MYPROJ ∧
    (add_python_env StringBuffer.zero (some (cstr VENV_PATH))).text
      = StringBuffer.zero.text ++ row_line (PY_ENV_LABEL ++ final_segment VENV_PATH) :=
  ⟨by decide,
    (add_python_env_shows_final_segment VENV_PATH StringBuffer.zero (by decide) (by decide)
      (by decide) (by decide) (by decide)).1⟩

theorem localhost_nul_free (host : Platform) :
    NulFree (CONCAT_3 USER_AT (HOST host) IN_LABEL) := by
  cases host <;> decide

theorem local_host_and_dir_row_of_path (host : Platform) (P s : List Nat) (hs : PATH_SEP ∉ s)
    (hnul : NulFree (P ++ PATH_SEP :: s)) (hlen : (P ++ PATH_SEP :: s).length < MAX_LINE_SIZE) :
    local_host_and_dir_row host (cstr (P ++ PATH_SEP :: s))
      = sb_append (sb_append StringBuffer.zero (cstr (CONCAT_3 USER_AT (HOST host) IN_LABEL))
          (CONCAT_3 USER_AT (HOST host) IN_LABEL).length) (cstr s) s.length := by
  obtain ⟨h1, h2, h3, h4⟩ := last_separator_facts P s hs hnul (le_of_lt hlen)
  have hl : strnlen (cstr (CONCAT_3 USER_AT (HOST host) IN_LABEL)) MAX_LINE_SIZE
      = (CONCAT_3 USER_AT (HOST host) IN_LABEL).length := by
    apply strnlen_cstr _ _ (localhost_nul_free host)
    cases host <;> decide
  unfold local_host_and_dir_row
  simp only [h1, h2, h3, h4, hl]

/-- C13. For every working directory `cwd` that begins with a separator,
holds no NUL, is shorter than 1024 bytes and whose row fits the line and the
accumulator, `add_local_host_and_dir` appends exactly one row whose fragment
is "JJ@", the platform tag, " in " and the part of `cwd` after its last
separator. The platform tag is one of "mac", "win", "linux", "unknown" and is
fixed by the build target, not by `cwd`. -/
theorem add_local_host_and_dir_shows_final_segment (host : Platform) (cwd : List Nat)
    (buffer : StringBuffer)
    (habs : cwd.head? = some PATH_SEP) (hnul : NulFree cwd) (hlen : cwd.length < MAX_LINE_SIZE)
    (hline : (USER_AT ++ HOST host ++ IN_LABEL ++ final_segment cwd).length + 15
      < MAX_LINE_SIZE)
    (hroom : buffer.cur + (USER_AT ++ HOST host ++ IN_LABEL ++ final_segment cwd).length + 15
      < BUF_SIZE) :
    (add_local_host_and_dir host buffer (cstr cwd)).text
      = buffer.text ++ row_line (USER_AT ++ HOST host ++ IN_LABEL ++ final_segment cwd) ∧
    HOST host ∈ [[109, 97, 99], [119, 105, 110], [108, 105, 110, 117, 120],
      [117, 110, 107, 110, 111, 119, 110]] := by
  refine ⟨?_, by cases host <;> decide⟩
  obtain ⟨P, hv, hno⟩ := final_segment_split cwd (mem_of_head cwd habs)
  generalize final_segment cwd = s at hv hno hline hroom ⊢
  subst hv
  have hcat : USER_AT ++ HOST host ++ IN_LABEL = CONCAT_3 USER_AT (HOST host) IN_LABEL := rfl
  rw [hcat] at hline hroom ⊢
  rw [List.length_append] at hline hroom
  have hrow := local_host_and_dir_row_of_path host P s hno hnul hlen
  have hta := two_appends (CONCAT_3 USER_AT (HOST host) IN_LABEL) s
    (by simp only [MAX_LINE_SIZE, BUF_SIZE] at *; omega)
  rw [← hrow] at hta
  have hstep := add_row_to_prompt_line buffer
    (local_host_and_dir_row host (cstr (P ++ PATH_SEP :: s))).val
    (local_host_and_dir_row host (cstr (P ++ PATH_SEP :: s))).cur (by rw [hta.2]; exact hline)
    (by rw [text_length, hta.2]; omega)
  show (add_row_to_prompt buffer (local_host_and_dir_row host (cstr (P ++ PATH_SEP :: s))).val
    (local_host_and_dir_row host (cstr (P ++ PATH_SEP :: s))).cur).text = _
  rw [hstep]
  show _ ++ row_line (local_host_and_dir_row host (cstr (P ++ PATH_SEP :: s))).text = _
  rw [hta.1]

/-- Witness for C13: the working directory "/a/b/c" on a Linux build gives the
fragment "JJ@linux in c". -/
theorem add_local_host_and_dir_shows_final_segment_witness :
    final_segment SHALLOW_CWD = [99] ∧
    (add_local_host_and_dir .linux StringBuffer.zero (cstr SHALLOW_CWD)).text
      = StringBuffer.zero.text ++
        row_line (USER_AT ++ HOST .linux ++ IN_LABEL ++ final_segment SHALLOW_CWD) :=
  ⟨by decide,
    (add_local_host_and_dir_shows_final_segment .linux SHALLOW_CWD StringBuffer.zero
      (by decide) (by decide) (by decide) (by decide) (by decide)).1⟩

theorem shell_copy_loop_spec (shell : Mem) (size : Nat) (hsize : size < UINT_MOD)
    (fuel i : Nat) (dst : StringBuffer) (hfuel : size - i < fuel)
    (hc : dst.cur + (size - i) < SIZE_MOD) :
    ∃ g, shell_copy_loop shell size fuel i dst = some g ∧
      g.cur = dst.cur + (size - i) ∧
      (∀ j, j < dst.cur → g.val j = dst.val j) ∧
      (∀ t, t < size - i → g.val (dst.cur + t) = shell (i + t)) := by
  induction fuel generalizing i dst with
  | zero => omega
  | succ fuel ih =>
    by_cases hlt : i < size
    · have hi1 : (i + 1) % UINT_MOD = i + 1 := Nat.mod_eq_of_lt (by omega)
      have hc1 : size_add dst.cur 1 = dst.cur + 1 := size_add_eq (by omega)
      obtain ⟨g, hg, hcur, hlow, hcopy⟩ := ih (i + 1)
        ⟨dst.cur + 1, mem_write dst.val dst.cur (shell i)⟩ (by omega)
        (by show dst.cur + 1 + (size - (i + 1)) < SIZE_MOD; omega)
      refine ⟨g, ?_, ?_, ?_, ?_⟩
      · simp only [shell_copy_loop, hlt, if_true, hi1, hc1]
        exact hg
      · rw [hcur]
        show dst.cur + 1 + (size - (i + 1)) = _
        omega
      · intro j hj
        rw [hlow j (by show j < dst.cur + 1; omega)]
        have : j ≠ dst.cur := by omega
        simp [mem_write, this]
      · intro t ht
        cases t with
        | zero =>
          show g.val dst.cur = shell i
          rw [hlow dst.cur (by show dst.cur < dst.cur + 1; omega)]
          simp [mem_write]
        | succ t =>
          have := hcopy t (by omega)
          rw [show dst.cur + (t + 1) = dst.cur + 1 + t by omega,
            show i + (t + 1) = i + 1 + t by omega]
          exact this
    · have hib : size - i = 0 := by omega
      refine ⟨dst, ?_, by omega, fun _ _ => rfl, ?_⟩
      · simp [shell_copy_loop, hlt]
      · intro t ht
        omega

/-- C14. For every `SHELL` value `s` (no NUL) whose row fits the line, and
every memory that holds `s` and its terminator, whatever follows the
terminator, the row `add_shell_info` passes to `add_row_to_prompt` (with fuel
above the length of `s`) is "Using " followed by `s` without its first 5
bytes, of size `6 + (length s - 5)`. When `s` has fewer than 5 bytes the
remainder is empty and the row is exactly "Using ", of size 6: the copy loop
does not run, no byte after the terminator influences the row, and no length
is computed by a subtraction that could wrap. -/
theorem shell_info_row_drops_five_bytes (s : List Nat) (m : Mem) (fuel : Nat)
    (hnul : NulFree s) (hm : HoldsString m s)
    (hline : (USING_LABEL ++ s.drop 5).length + 15 < MAX_LINE_SIZE)
    (hfuel : s.length < fuel) :
    ∃ r, shell_info_row fuel m = some r ∧
      r.text = USING_LABEL ++ s.drop 5 ∧
      r.cur = 6 + (s.length - 5) ∧
      (s.length < 5 → r.text = USING_LABEL ∧ r.cur = 6) := by
  have hl : (USING_LABEL ++ s.drop 5).length = 6 + (s.length - 5) := by
    rw [List.length_append, List.length_drop]
    rfl
  rw [hl] at hline
  have hs : s.length < 1008 := by
    simp only [MAX_LINE_SIZE] at hline
    omega
  have hlen : strnlen m MAX_LINE_SIZE = s.length := by
    apply strnlen_eq m _ _ _ (by simp only [MAX_LINE_SIZE]; omega) (Or.inl hm.2)
    intro j hj
    rw [hm.1 j hj, cstr_lt s j hj]
    exact hnul _ (List.getElem_mem _)
  have h5 : 5 % UINT_MOD = 5 := by decide
  obtain ⟨g, hg, hcur, hlow, hcopy⟩ := shell_copy_loop_spec m s.length
    (by simp only [UINT_MOD]; omega) fuel 5 ⟨6, cstr USING_LABEL⟩ (by omega)
    (by show 6 + (s.length - 5) < SIZE_MOD; simp only [SIZE_MOD]; omega)
  have hcur6 : g.cur = 6 + (s.length - 5) := hcur
  have e1 : bytes g.val 6 = USING_LABEL := by
    refine (bytes_congr ?_).trans (bytes_cstr USING_LABEL)
    intro j hj
    exact hlow j hj
  have e2 : bytes (offset g.val 6) (s.length - 5) = s.drop 5 := by
    apply List.ext_getElem
    · rw [bytes_length, List.length_drop]
    · intro t h1 h2
      rw [bytes_length] at h1
      rw [bytes_getElem, List.getElem_drop]
      show g.val (6 + t) = _
      rw [hcopy t h1, hm.1 (5 + t) (by omega), cstr_lt s (5 + t) (by omega)]
  have htext : g.text = USING_LABEL ++ s.drop 5 := by
    show bytes g.val g.cur = _
    rw [hcur6, bytes_add, e1, e2]
  refine ⟨g, ?_, htext, hcur6, ?_⟩
  · unfold shell_info_row
    rw [hlen]
    show shell_copy_loop m s.length fuel (5 % UINT_MOD) ⟨6, cstr USING_LABEL⟩ = some g
    rw [h5]
    exact hg
  · intro hshort
    have hd : s.drop 5 = [] := List.drop_eq_nil_of_le (by omega)
    refine ⟨by rw [htext, hd, List.append_nil], by rw [hcur6]; omega⟩

/-- Witness for C14: "/bin/zsh" gives "Using zsh". -/
theorem shell_info_row_drops_five_bytes_witness :
    USING_LABEL ++ BIN_ZSH.drop 5 = [85, 115, 105, 110, 103, 32, 122, 115, 104] ∧
    ∃ r, shell_info_row 9 (cstr BIN_ZSH) = some r ∧
      r.text = USING_LABEL ++ BIN_ZSH.drop 5 ∧
      r.cur = 6 + (BIN_ZSH.length - 5) ∧
      (BIN_ZSH.length < 5 → r.text = USING_LABEL ∧ r.cur = 6) :=
  ⟨by decide,
    shell_info_row_drops_five_bytes BIN_ZSH (cstr BIN_ZSH) 9 (by decide)
      ⟨fun _ _ => rfl, by decide⟩ (by decide) (by decide)⟩

/-! ## The footers: verified properties -/

set_option maxRecDepth 100000 in
/-- C15 (counterexample). After three rows of 1008 bytes and one
of 1007 bytes the cursor is 4095: `add_bottom_row` and `add_prompt_char` both
go through the capacity check of `sb_append`, neither footer fits, and the
accumulator is left as it was. Its last bytes are "aaaa" and a line feed, not
the prompt-character sequence. -/
theorem footers_dropped_when_full :
    NEARLY_FULL.cur = 4095 ∧ CursorInBounds NEARLY_FULL ∧
    (add_bottom_row NEARLY_FULL).cur = 4095 ∧
    (add_prompt_char (add_bottom_row NEARLY_FULL)).cur = 4095 ∧
    bytes (offset (add_prompt_char (add_bottom_row NEARLY_FULL)).val 4090) 5
      = [97, 97, 97, 97, 10] ∧
    PROMPT_CHARS = [10, 226, 132, 129, 10] := by
  decide

/-- C15 (amended). The footers go through the capacity check of `sb_append`
only. For every accumulator whose cursor `c` is at most the capacity: when
`c + 131 + 5 < 4096`, `add_bottom_row` followed by `add_prompt_char` appends
the complete bottom banner and then the complete prompt-character sequence
(line feed, prompt glyph, line feed), so the contents end with that sequence;
when `c + 131 >= 4096` the banner is dropped whole, and when `c + 5 >= 4096`
the prompt-character sequence is dropped whole. -/
theorem footers_appended_when_room (b : StringBuffer) (hb : b.cur ≤ BUF_SIZE) :
    (b.cur + 131 + 5 < BUF_SIZE →
      (add_prompt_char (add_bottom_row b)).text = b.text ++ BOTTOM_ROW ++ PROMPT_CHARS ∧
      PROMPT_CHARS <:+ (add_prompt_char (add_bottom_row b)).text) ∧
    PROMPT_CHARS = [10] ++ PROMPT_CHAR ++ [10] ∧
    (BUF_SIZE ≤ b.cur + 131 → add_bottom_row b = b) ∧
    (BUF_SIZE ≤ b.cur + 5 → add_prompt_char b = b) := by
  refine ⟨?_, rfl, ?_, ?_⟩
  · intro h
    have ht := add_footers_text b (by rw [text_length]; exact h)
    refine ⟨ht, ?_⟩
    rw [ht]
    exact List.suffix_append _ _
  · intro h
    unfold add_bottom_row
    rw [bottom_row_size_eq]
    exact sb_append_full b _ _ h (by simp only [BUF_SIZE, SIZE_MOD] at *; omega)
  · intro h
    unfold add_prompt_char
    rw [prompt_chars_size_eq]
    exact sb_append_full b _ _ h (by simp only [BUF_SIZE, SIZE_MOD] at *; omega)

/-- Witness for C15: the footers appended to the empty accumulator. -/
theorem footers_appended_when_room_witness :
    StringBuffer.zero.cur ≤ BUF_SIZE ∧
    (add_prompt_char (add_bottom_row StringBuffer.zero)).text
      = StringBuffer.zero.text ++ BOTTOM_ROW ++ PROMPT_CHARS ∧
    PROMPT_CHARS <:+ (add_prompt_char (add_bottom_row StringBuffer.zero)).text :=
  ⟨by decide,
    ((footers_appended_when_room StringBuffer.zero (by decide)).1 (by decide)).1,
    ((footers_appended_when_room StringBuffer.zero (by decide)).1 (by decide)).2⟩

/-! ## Handles, terminators and array bounds: verified properties -/

/-- C17 (defect in the code). In the working tree "/a" on branch "main" the
function opens the directory "/a", the directory "/a/.git" and the file
"/a/.git/HEAD" and reports the branch; the only handle it closes before it
returns is "/a/.git" (line 212). The directory handle of "/a" and the file
descriptor of "/a/.git/HEAD" are still open on return. -/
theorem add_git_info_leaves_handles_open :
    open_handles [] = [] ∧
    (git_info DEMO_FS 5 (cstr [47, 97])).map (fun r => (r.row.isSome, open_handles r.log))
      = some (true, [[47, 97], [47, 97, 47, 46, 103, 105, 116, 47, 72, 69, 65, 68]]) := by
  decide

/-- C18 (defect in the code). For the `VIRTUAL_ENV` value "myproj", which
holds no separator, `find_next_dir` returns 0 and `add_python_env` copies from
index `0 + 1` on: the row is "Py env: yproj", the first character of the
value is removed. -/
theorem python_env_row_drops_first_byte :
    PATH_SEP ∉ MYPROJ ∧ MYPROJ ≠ [] ∧ final_segment MYPROJ = MYPROJ ∧
    find_next_dir (cstr MYPROJ) (strnlen (cstr MYPROJ) MAX_LINE_SIZE) = 0 ∧
    (python_env_row (cstr MYPROJ)).text = PY_ENV_LABEL ++ [121, 112, 114, 111, 106] ∧
    (python_env_row (cstr MYPROJ)).text ≠ PY_ENV_LABEL ++ MYPROJ := by
  decide

set_option maxRecDepth 100000 in
/-- C19 (defect in the code). With `PWD` "/a", a working tree whose HEAD file
holds 40 hexadecimal digits and a line feed, and `SHELL` "/bin/sh" (no input
holds a NUL), the accumulator holds a NUL before its cursor: the seventh byte
of the detached row. Printing it as a string stops there: the text written is
the user/host/directory row and the row prefix with "012345", shorter than
the accumulated contents; the line feed of that row, the shell row, the
bottom banner and the prompt-character sequence are not written. -/
theorem main_output_cut_at_nul :
    NulFree [47, 97] ∧ NulFree BIN_SH ∧ NulFree DETACHED_HEAD ∧
    (main .linux DETACHED_FS 1025 none (some (cstr [47, 97])) (some (cstr BIN_SH))).map
        (fun out => (decide (0 ∈ out.text), printed out,
          decide ((printed out).length < out.text.length),
          decide (PROMPT_CHARS <:+ out.text)))
      = some (true,
          host_line .linux (some (cstr [47, 97])) ++ ROW_PREFIX ++ [48, 49, 50, 51, 52, 53],
          true, true) := by
  decide

theorem branch_copy_loop_diverges (info : Mem) (pfx bound : Nat) (hb : UINT_MOD ≤ bound)
    (fuel i : Nat) (dst : StringBuffer) (hi : i < UINT_MOD) :
    branch_copy_loop info pfx bound fuel i dst = none := by
  induction fuel generalizing i dst with
  | zero => rfl
  | succ fuel ih =>
    have hlt : i < bound := by omega
    simp only [branch_copy_loop, hlt, if_true]
    exact ih _ _ (Nat.mod_lt _ (by decide))

/-- C20 (defect in the code). When `read` returns 1024 bytes, the terminator
is written at index 1024 of `branch_info`, one past its last element (the
array has `MAX_LINE_SIZE` = 1024 elements): the byte at index 1024 changes.
When `read` returns the 16 bytes "ref: refs/heads/", `branch_size` is
`16 - 16 - 1` in `size_t`, that is `2^64 - 1`, and the copy loop, which reads
index `16 + i` for every `i` below `branch_size`, never ends: it reads index
16 and every index after it, none of them below 16. -/
theorem parse_head_indices_out_of_bounds :
    ((List.replicate 1024 97).take MAX_LINE_SIZE).length = MAX_LINE_SIZE ∧
    (branch_info_after_read (fun _ => 1) (List.replicate 1024 97)) 1024 = 1 ∧
    (terminate_branch_info (branch_info_after_read (fun _ => 1) (List.replicate 1024 97))
      ((List.replicate 1024 97).take MAX_LINE_SIZE).length) 1024 = 0 ∧
    size_sub (size_sub STD_PREFIX.length (strnlen (cstr STD_PREFIX) MAX_LINE_SIZE)) 1
      = SIZE_MOD - 1 ∧
    ∀ fuel, parse_head fuel (fun _ => 0) (branch_info_after_read (fun _ => 0) STD_PREFIX)
      STD_PREFIX.length = none := by
  have hlen : ((List.replicate 1024 97).take MAX_LINE_SIZE).length = 1024 := by
    rw [List.length_take, List.length_replicate]
    decide
  have hsub : size_sub (size_sub STD_PREFIX.length (strnlen (cstr STD_PREFIX) MAX_LINE_SIZE)) 1
      = SIZE_MOD - 1 := by
    rw [std_prefix_size_eq]
    decide
  refine ⟨hlen, ?_, ?_, hsub, ?_⟩
  · unfold branch_info_after_read
    rw [List.length_replicate]
    rfl
  · rw [hlen]
    unfold terminate_branch_info mem_write
    exact if_pos rfl
  · intro fuel
    have hcmp : strncmp_eq
        (terminate_branch_info (branch_info_after_read (fun _ => 0) STD_PREFIX) STD_PREFIX.length)
        (cstr STD_PREFIX) 16 0 = true := by decide
    unfold parse_head
    rw [std_prefix_size_eq]
    simp only [hcmp, if_true]
    rw [std_prefix_size_eq] at hsub
    rw [hsub, branch_copy_loop_diverges _ _ _ (by decide) _ _ _ (by decide)]

/-! ## Termination of the walk: verified properties -/

end ShellPrompt
